import Mathlib

/-!
Verification of the flavor-switcher engine (`src/flavor-switcher.ts`).

The engine is embedded shallowly:

* Filesystem paths are lists of components (`Path`); `path.join` is list
  append.
* The filesystem is a total map `Path → Option FsNode`; a node is either a
  file with byte content or a directory.  `fs-extra` operations are embedded
  as path-map transformers: `fs.copy(src, dst, {overwrite: true})` copies
  the source subtree *into* the destination (destination entries with no
  source counterpart survive; see `copyTree` for how its throw-on-kind-clash
  behaviour is handled), `fs.remove` deletes a subtree, `fs.unlink` deletes
  a single file entry (and throws on a directory or a missing path),
  `fs.ensureDir` creates the missing directories on a path (and throws when
  an existing ancestor is a file).  Operations that can throw return
  `Except`; the engine functions propagate the failure together with the
  filesystem at the moment of the throw, matching the `try`/`catch` +
  `process.exit(1)` structure of `switchFlavor` and `resetFlavor`.
* The persisted state file is modelled as `Option (Option State)`
  (absent / present-but-unparseable / parsed), matching the three behaviours
  of `readJson` that `loadState` distinguishes.
* The `.gitignore` file is text; it is modelled as `Option (List Char)`.
* `crypto.createHash('sha256')` is embedded as an executable SHA-256 over
  byte lists, with digests rendered in lowercase hex as `digest('hex')` does.

The constants (`STATE_FILE`, `BACKUP_DIR`, `FLAVORS_DIR`,
`GITIGNORE_MARKER`) are imported by `flavor-switcher.ts` from a
`constants` module that is not part of the snapshot; their values are taken
from the inlined copies in `src/brand-switcher-main.ts`, the near-duplicate
of the same program contained in this repository.  No theorem below depends
on the exact spelling of these constants.
-/

namespace FlavorSwitcher

/-! ## Paths and the filesystem model -/

/-- A filesystem path, as a list of components; `path.join` is `(· ++ ·)`. -/
abbrev Path := List String

/-- Render a path the way it appears in the JSON configuration and in error
messages (components joined by `/`). -/
def renderPath (p : Path) : String := String.intercalate "/" p

/-- A filesystem node: a regular file with byte content, or a directory. -/
inductive FsNode
  | file (bytes : List Nat)
  | dir
deriving DecidableEq

/-- The filesystem: a map from paths to nodes (`none` = no entry). -/
abbrev FS := Path → Option FsNode

/-- `fs.pathExists` / `fs.existsSync`. -/
def pathExists (fs : FS) (p : Path) : Bool := (fs p).isSome

/-- The errors thrown inside the engine (plain `Error` / `SystemError`
objects in the source, distinguished here by their messages or `errno`
codes): the four validation errors of `switchFlavor`, the mid-apply
`Required source file missing`, and the filesystem errors `ENOTDIR` /
`EEXIST` from `fs.ensureDir` on a file ancestor, `EISDIR` from `fs.unlink`
on a directory, and `ENOENT` from `fs.unlink` on a missing path.  All of
them propagate to the `try`/`catch` of `switchFlavor` / `resetFlavor`,
which logs and exits. -/
inductive SwitchError
  | flavorDirMissing (flavorPath : Path)
  | structureInvalid (problems : List String)
  | notConfigured (name : String)
  | inactive (name : String)
  | requiredSourceMissing (source : Path)
  | notDirectory (p : Path)
  | isDirectory (p : Path)
  | noEntry (p : Path)
deriving DecidableEq

/-- Left-biased choice of filesystem nodes (the first when present,
otherwise the second): the pointwise effect of an overwriting copy on one
destination path. -/
def nodeOr (a b : Option FsNode) : Option FsNode :=
  match a with
  | some n => some n
  | none => b

/-- `fs.copy(src, dst, {overwrite: true})`: fs-extra copies the source tree
*into* the destination.  Every path carried by the source subtree is
overwritten with the source's node there, while destination entries with no
counterpart in the source survive (copying a directory onto an existing
directory merges them).  fs-extra throws when a source file would overwrite
an existing directory or a source directory an existing file; that error
condition quantifies over the whole pair of subtrees and is not decidable
in this pointwise filesystem model, so `copyTree` models the non-throwing
executions and the engine theorems carry `NoClash` hypotheses confining
them to runs in which no copy throws.  (Every engine call site guards the
copy with an existence check on `src`, and the destination's parent chain
exists at every call site, so the implicit `mkdirp` of the destination
parent is a no-op.) -/
def copyTree (fs : FS) (src dst : Path) : FS := fun q =>
  if dst.isPrefixOf q then nodeOr (fs (src ++ q.drop dst.length)) (fs q)
  else fs q

/-- `fs.remove`: recursive deletion of a subtree (no-op on a missing path,
never throws). -/
def removeTree (fs : FS) (p : Path) : FS := fun q =>
  if p.isPrefixOf q then none else fs q

/-- The filesystem after a successful `fs.unlink(p)`. -/
def dropEntry (fs : FS) (p : Path) : FS := fun q =>
  if q = p then none else fs q

/-- `fs.unlink`: deletes a single file entry; throws `EISDIR` on a
directory and `ENOENT` on a missing path. -/
def unlinkFile (fs : FS) (p : Path) : Except SwitchError FS :=
  match fs p with
  | some (FsNode.file _) => .ok (dropEntry fs p)
  | some FsNode.dir => .error (.isDirectory p)
  | none => .error (.noEntry p)

/-- Does this cell hold a regular file? -/
def isFileNode : Option FsNode → Bool
  | some (FsNode.file _) => true
  | _ => false

/-- The nonempty prefixes of a path, shortest first: the chain of
directories `fs.ensureDir` walks. -/
def pathPrefixes (d : Path) : List Path :=
  (List.range d.length).map fun i => d.take (i + 1)

/-- The filesystem after a successful `fs.ensureDir d`: every missing
ancestor of `d` (and `d` itself) becomes a directory.  The empty path is
the process working directory, which always exists as a directory. -/
def ensureFill (fs : FS) (d : Path) : FS := fun q =>
  if q ≠ [] ∧ q.isPrefixOf d ∧ (fs q).isNone then some FsNode.dir else fs q

/-- `fs.ensureDir d` (`mkdir -p`): throws `ENOTDIR` / `EEXIST` when `d` or
one of its ancestors exists as a regular file, and otherwise creates the
missing directories on the chain.  The error is raised before any ancestor
below the offending file could be created, so the failing case mutates
nothing. -/
def ensureDirs (fs : FS) (d : Path) : Except SwitchError FS :=
  match (pathPrefixes d).find? (fun q => isFileNode (fs q)) with
  | some q => .error (.notDirectory q)
  | none => .ok (ensureFill fs d)

/-! ## Constants (`src/constants`, inlined in `brand-switcher-main.ts`) -/

def STATE_FILE : String := ".brand-state.json"

def BACKUP_DIR : String := ".brand-backup"

def FLAVORS_DIR : String := "brands"

def GITIGNORE_MARKER : List Char :=
  "# Brand Switcher - DO NOT EDIT BELOW THIS LINE".data

/-- `BACKUP_DIR` as a path. -/
def BACKUP_ROOT : Path := [BACKUP_DIR]

/-- `FLAVORS_DIR` as a path. -/
def FLAVORS_ROOT : Path := [FLAVORS_DIR]

/-! ## Configuration and state data model (`src/types.ts`) -/

inductive FileType
  | file
  | directory
deriving DecidableEq

structure FlavorConfig where
  displayName : String
  description : Option String := none
  active : Bool
deriving DecidableEq

structure Mapping where
  source : Path
  target : Path
  type : FileType
  required : Bool
  description : Option String := none
deriving DecidableEq

structure RequiredStructure where
  files : List Path
  directories : List Path
deriving DecidableEq

structure Configuration where
  version : String := "1.0.0"
  projectRoot : Path := []
  flavors : List (String × FlavorConfig)
  mappings : List Mapping
  requiredStructure : RequiredStructure := ⟨[], []⟩
deriving DecidableEq

/-- `FileInfo` from `src/types.ts`; the `exists` field is spelled `exists'`
because `exists` is a reserved word in Lean. -/
structure FileInfo where
  hash : Option (List Char)
  exists' : Bool
  type : FileType
deriving DecidableEq

/-- `State` from `src/types.ts`; `originalFiles` is a JS object keyed by
mapping target, embedded as an insertion-ordered association list. -/
structure State where
  currentFlavor : Option String
  originalFiles : List (Path × FileInfo)
deriving DecidableEq

/-- The in-memory fields of the `FlavorSwitcher` class: `this.state` and
`this.currentFlavor`. -/
structure Engine where
  state : State
  currentFlavor : Option String
deriving DecidableEq

/-- The world outside the process: the filesystem, the persisted state file
(`none` = absent, `some none` = present but unparseable, `some (some s)` =
parses to `s`), and the `.gitignore` text. -/
structure World where
  fs : FS
  ledgerFile : Option (Option State)
  gitignore : Option (List Char)

/-- JavaScript truthiness of `this.currentFlavor`: `null` and the empty
string are falsy. -/
def truthy : Option String → Bool
  | none => false
  | some s => !(s = "")

/-- Assignment `obj[key] = v` on a JS object embedded as an association
list: replace in place if the key is present, append otherwise. -/
def setKey (l : List (Path × FileInfo)) (k : Path) (v : FileInfo) :
    List (Path × FileInfo) :=
  match l with
  | [] => [(k, v)]
  | (k', v') :: rest =>
      if k' = k then (k, v) :: rest else (k', v') :: setKey rest k v

/-- `this.config.flavors[flavorName]` (object field access). -/
def lookupFlavor (cfg : Configuration) (name : String) : Option FlavorConfig :=
  (cfg.flavors.find? (fun p => p.1 = name)).map Prod.snd

/-! ## SHA-256 (`crypto.createHash('sha256')`) -/

/-- 32-bit right rotation. -/
def rotr32 (n x : Nat) : Nat :=
  ((x >>> n) ||| (x <<< (32 - n))) % 4294967296

/-- `k`-byte big-endian encoding of `n`. -/
def bytesBE (k n : Nat) : List Nat :=
  (List.range k).map fun i => (n >>> (8 * (k - 1 - i))) % 256

/-- SHA-256 round constants (decimal form of the standard 32-bit words,
the fractional parts of the cube roots of the first 64 primes). -/
def sha256K : List Nat :=
  [1116352408, 1899447441, 3049323471, 3921009573, 961987163,
   1508970993, 2453635748, 2870763221, 3624381080, 310598401,
   607225278, 1426881987, 1925078388, 2162078206, 2614888103,
   3248222580, 3835390401, 4022224774, 264347078, 604807628,
   770255983, 1249150122, 1555081692, 1996064986, 2554220882,
   2821834349, 2952996808, 3210313671, 3336571891, 3584528711,
   113926993, 338241895, 666307205, 773529912, 1294757372,
   1396182291, 1695183700, 1986661051, 2177026350, 2456956037,
   2730485921, 2820302411, 3259730800, 3345764771, 3516065817,
   3600352804, 4094571909, 275423344, 430227734, 506948616,
   659060556, 883997877, 958139571, 1322822218, 1537002063,
   1747873779, 1955562222, 2024104815, 2227730452, 2361852424,
   2428436474, 2756734187, 3204031479, 3329325298]

/-- SHA-256 initial hash value (decimal form of the standard 32-bit words,
the fractional parts of the square roots of the first 8 primes). -/
def sha256H0 : List Nat :=
  [1779033703, 3144134277, 1013904242, 2773480762,
   1359893119, 2600822924, 528734635, 1541459225]

/-- SHA-256 padding: append `0x80`, zeros to 56 mod 64 bytes, then the
64-bit big-endian bit length. -/
def padMessage (msg : List Nat) : List Nat :=
  msg ++ 0x80 :: List.replicate ((119 - msg.length % 64) % 64) 0
      ++ bytesBE 8 (8 * msg.length)

/-- Split a byte list into 64-byte blocks. -/
def toBlocks : List Nat → List (List Nat)
  | [] => []
  | x :: xs => (x :: xs).take 64 :: toBlocks ((x :: xs).drop 64)
termination_by l => l.length
decreasing_by simp; omega

/-- First 16 big-endian 32-bit words of a 64-byte block. -/
def wordsOfBlock (b : List Nat) : List Nat :=
  (List.range 16).map fun i =>
    let c := b.drop (4 * i)
    ((c.getD 0 0 * 256 + c.getD 1 0) * 256 + c.getD 2 0) * 256 + c.getD 3 0

/-- Extend 16 schedule words to 64. -/
def schedule (ws : List Nat) : List Nat :=
  (List.range 48).foldl
    (fun w _ =>
      let n := w.length
      let x := w.getD (n - 15) 0
      let y := w.getD (n - 2) 0
      let s0 := rotr32 7 x ^^^ rotr32 18 x ^^^ (x >>> 3)
      let s1 := rotr32 17 y ^^^ rotr32 19 y ^^^ (y >>> 10)
      w ++ [(w.getD (n - 16) 0 + s0 + w.getD (n - 7) 0 + s1) % 4294967296])
    ws

/-- One SHA-256 compression round over a 64-byte block. -/
def compressBlock (h : List Nat) (block : List Nat) : List Nat :=
  let w := schedule (wordsOfBlock block)
  let res := (List.range 64).foldl
    (fun (st : Nat × Nat × Nat × Nat × Nat × Nat × Nat × Nat) i =>
      let (a, b, c, d, e, f, g, hh) := st
      let s1 := rotr32 6 e ^^^ rotr32 11 e ^^^ rotr32 25 e
      let ch := (e &&& f) ^^^ ((e ^^^ 4294967295) &&& g)
      let t1 := (hh + s1 + ch + sha256K.getD i 0 + w.getD i 0) % 4294967296
      let s0 := rotr32 2 a ^^^ rotr32 13 a ^^^ rotr32 22 a
      let maj := (a &&& b) ^^^ (a &&& c) ^^^ (b &&& c)
      let t2 := (s0 + maj) % 4294967296
      ((t1 + t2) % 4294967296, a, b, c, (d + t1) % 4294967296, e, f, g))
    (h.getD 0 0, h.getD 1 0, h.getD 2 0, h.getD 3 0,
     h.getD 4 0, h.getD 5 0, h.getD 6 0, h.getD 7 0)
  let (a, b, c, d, e, f, g, hh) := res
  [(h.getD 0 0 + a) % 4294967296, (h.getD 1 0 + b) % 4294967296,
   (h.getD 2 0 + c) % 4294967296, (h.getD 3 0 + d) % 4294967296,
   (h.getD 4 0 + e) % 4294967296, (h.getD 5 0 + f) % 4294967296,
   (h.getD 6 0 + g) % 4294967296, (h.getD 7 0 + hh) % 4294967296]

/-- SHA-256 digest (32 bytes) of a byte list. -/
def sha256 (msg : List Nat) : List Nat :=
  ((toBlocks (padMessage msg)).foldl compressBlock sha256H0).foldr
    (fun w acc => bytesBE 4 w ++ acc) []

/-- Lowercase hex digit. -/
def hexChar (n : Nat) : Char :=
  if n < 10 then Char.ofNat (48 + n) else Char.ofNat (87 + n)

/-- Lowercase hex rendering of a byte list (`digest('hex')`). -/
def hexString (bytes : List Nat) : List Char :=
  bytes.foldr (fun b acc => hexChar (b / 16 % 16) :: hexChar (b % 16) :: acc) []

/-- `getFileHash`: `null` for a missing path or a directory, otherwise the
hex SHA-256 digest of the file's bytes. -/
def getFileHash (fs : FS) (p : Path) : Option (List Char) :=
  match fs p with
  | none => none
  | some FsNode.dir => none
  | some (FsNode.file bytes) => some (hexString (sha256 bytes))

/-! ## The Ignore-File Synchronizer (`updateGitignore`) -/

/-- `String.prototype.indexOf`: index of the first occurrence of `pat`, or
`none` (JS returns `-1`). -/
def firstMatch (pat : List Char) : List Char → Option Nat
  | [] => if pat.isPrefixOf ([] : List Char) then some 0 else none
  | c :: rest =>
      if pat.isPrefixOf (c :: rest) then some 0
      else (firstMatch pat rest).map (· + 1)

/-- The ECMAScript whitespace characters recognised by `trimEnd`. -/
def isJsWhitespace (c : Char) : Bool :=
  c ∈ [' ', '\t', '\n', '\r', '\x0b', '\x0c', '\u00a0', '\u1680',
       '\u2000', '\u2001', '\u2002', '\u2003', '\u2004', '\u2005',
       '\u2006', '\u2007', '\u2008', '\u2009', '\u200a', '\u2028',
       '\u2029', '\u202f', '\u205f', '\u3000', '\ufeff']

/-- `String.prototype.trimEnd`. -/
def trimEnd (s : List Char) : List Char :=
  (s.reverse.dropWhile isJsWhitespace).reverse

/-- `Array.prototype.join(sep)`. -/
def joinStrings (sep : List Char) : List (List Char) → List Char
  | [] => []
  | [x] => x
  | x :: y :: rest => x ++ sep ++ joinStrings sep (y :: rest)

/-- The `.gitignore` content written by `updateGitignore`, as a function of
the configuration, `this.currentFlavor`, and the existing file content
(`none` when the file is absent). -/
def gitignoreOutput (cfg : Configuration) (currentFlavor : Option String)
    (existing : Option (List Char)) : List Char :=
  let content := existing.getD []
  let content :=
    match firstMatch GITIGNORE_MARKER content with
    | some i => trimEnd (content.take i)
    | none => content
  let patterns : List (List Char) :=
    [[], GITIGNORE_MARKER, STATE_FILE.data, (BACKUP_DIR ++ "/").data] ++
      (if truthy currentFlavor then
        cfg.mappings.map (fun m => (renderPath m.target).data)
      else [])
  content ++ '\n' :: joinStrings ['\n'] patterns

/-- Number of (possibly overlapping) occurrences of `pat` as a contiguous
substring; the observable behind "exactly one marker occurrence". -/
def countOcc (pat : List Char) : List Char → Nat
  | [] => 0
  | c :: rest =>
      (if pat.isPrefixOf (c :: rest) then 1 else 0) + countOcc pat rest

/-- `updateGitignore` as a world transformer. -/
def updateGitignore (cfg : Configuration) (currentFlavor : Option String)
    (w : World) : World :=
  { w with gitignore := some (gitignoreOutput cfg currentFlavor w.gitignore) }

/-! ## Engine operations -/

/-- `loadState`: a missing state file and an unparseable state file both
yield the fresh empty state; a parsed state also sets `this.currentFlavor`. -/
def loadState (w : World) : Engine :=
  match w.ledgerFile with
  | none => ⟨⟨none, []⟩, none⟩
  | some none => ⟨⟨none, []⟩, none⟩
  | some (some st) => ⟨st, st.currentFlavor⟩

/-- `saveState`: persist `this.state`. -/
def saveState (st : State) (w : World) : World :=
  { w with ledgerFile := some (some st) }

/-- `validateFlavorStructure`: throws if the flavor directory is missing;
otherwise aggregates one message per missing required file, missing required
directory, and required mapping with a missing source, in that order, and
throws them all at once when any were found. -/
def validateFlavorStructure (cfg : Configuration) (fs : FS)
    (flavorName : String) : Except SwitchError Unit :=
  let flavorPath := FLAVORS_ROOT ++ [flavorName]
  if !pathExists fs flavorPath then .error (.flavorDirMissing flavorPath)
  else
    let errors :=
      (cfg.requiredStructure.files.filter
          (fun f => !pathExists fs (flavorPath ++ f))).map
        (fun f => "Missing required file: " ++ renderPath f) ++
      (cfg.requiredStructure.directories.filter
          (fun d => !pathExists fs (flavorPath ++ d))).map
        (fun d => "Missing required directory: " ++ renderPath d) ++
      (cfg.mappings.filter
          (fun m => m.required && !pathExists fs (flavorPath ++ m.source))).map
        (fun m => "Missing required mapping source: " ++ renderPath m.source)
    if errors.isEmpty then .ok () else .error (.structureInvalid errors)

/-- One iteration of the backup loop in `backupOriginalFiles` (source lines
140–159): record an existing target (hash, `exists: true`, declared type),
`fs.ensureDir` the backup path's parent, and copy the target there; an
absent target is only recorded.  The `ensureDir` can throw. -/
def backupStep (cfg : Configuration) (acc : List (Path × FileInfo) × FS)
    (m : Mapping) : Except SwitchError (List (Path × FileInfo) × FS) :=
  let (backups, fs) := acc
  let targetPath := cfg.projectRoot ++ m.target
  if pathExists fs targetPath then
    let backups := setKey backups m.target
      ⟨getFileHash fs targetPath, true, m.type⟩
    let backupPath := BACKUP_ROOT ++ m.target
    match ensureDirs fs backupPath.dropLast with
    | .error err => .error err
    | .ok fs1 => .ok (backups, copyTree fs1 targetPath backupPath)
  else
    .ok (setKey backups m.target ⟨none, false, m.type⟩, fs)

/-- The backup loop; an error propagates with the filesystem at the moment
of the throw (the locally accumulated `backups` object is discarded, since
`this.state.originalFiles` is only assigned after the loop). -/
def backupMappings (cfg : Configuration) :
    List Mapping → List (Path × FileInfo) × FS →
      Except (SwitchError × FS) (List (Path × FileInfo) × FS)
  | [], acc => .ok acc
  | m :: rest, acc =>
      match backupStep cfg acc m with
      | .error err => .error (err, acc.2)
      | .ok acc1 => backupMappings cfg rest acc1

/-- `backupOriginalFiles`: record and copy every existing mapping target,
record the absent ones, replace `this.state.originalFiles`, persist. -/
def backupOriginalFiles (cfg : Configuration) (e : Engine) (w : World) :
    Except (SwitchError × FS) (Engine × World) :=
  match backupMappings cfg cfg.mappings ([], w.fs) with
  | .error (err, fsE) => .error (err, fsE)
  | .ok (backups, fs) =>
      let st : State := { e.state with originalFiles := backups }
      .ok (⟨st, e.currentFlavor⟩, saveState st { w with fs := fs })

/-- One iteration of the restore loop in `restoreOriginalFiles` (source
lines 175–190): copy the backup over an existing record's target, delete a
non-existing record's target (`fs.remove` for a directory record,
`fs.unlink` — which can throw — otherwise). -/
def restoreStep (cfg : Configuration) (fs : FS) (entry : Path × FileInfo) :
    Except SwitchError FS :=
  let targetPath := cfg.projectRoot ++ entry.1
  let backupPath := BACKUP_ROOT ++ entry.1
  if entry.2.exists' && pathExists fs backupPath then
    .ok (copyTree fs backupPath targetPath)
  else if !entry.2.exists' && pathExists fs targetPath then
    if entry.2.type = FileType.directory then .ok (removeTree fs targetPath)
    else unlinkFile fs targetPath
  else .ok fs

/-- The restore loop; an error propagates with the filesystem at the moment
of the throw. -/
def restoreEntries (cfg : Configuration) :
    List (Path × FileInfo) → FS → Except (SwitchError × FS) FS
  | [], fs => .ok fs
  | ent :: rest, fs =>
      match restoreStep cfg fs ent with
      | .error err => .error (err, fs)
      | .ok fs1 => restoreEntries cfg rest fs1

/-- `restoreOriginalFiles`: no-op when no originals are recorded, otherwise
process every ledger entry in insertion order. -/
def restoreOriginalFiles (cfg : Configuration) (st : State) (fs : FS) :
    Except (SwitchError × FS) FS :=
  if st.originalFiles.isEmpty then .ok fs
  else restoreEntries cfg st.originalFiles fs

/-- The apply loop of `applyFlavor`: for each mapping whose source exists,
`fs.ensureDir` the target's parent (which can throw) and copy the source
over the target; throw `Required source file missing` on a missing required
source (leaving the copies already made in place); skip missing optional
sources. -/
def applyMappings (cfg : Configuration) (flavorPath : Path) :
    List Mapping → FS → Except (SwitchError × FS) FS
  | [], fs => .ok fs
  | m :: rest, fs =>
      let sourcePath := flavorPath ++ m.source
      let targetPath := cfg.projectRoot ++ m.target
      if pathExists fs sourcePath then
        match ensureDirs fs targetPath.dropLast with
        | .error err => .error (err, fs)
        | .ok fs1 =>
            applyMappings cfg flavorPath rest
              (copyTree fs1 sourcePath targetPath)
      else if m.required then .error (.requiredSourceMissing m.source, fs)
      else applyMappings cfg flavorPath rest fs

/-- `applyFlavor`. -/
def applyFlavor (cfg : Configuration) (flavorName : String) (fs : FS) :
    Except (SwitchError × FS) FS :=
  applyMappings cfg (FLAVORS_ROOT ++ [flavorName]) cfg.mappings fs

/-- `switchFlavor`: validate (no mutation), restore the previous flavor's
originals when one is active, capture backups only when none is, apply the
new flavor, persist the state, rewrite `.gitignore`.  An error value carries
the engine and world at the moment of the throw (the CLI then exits). -/
def switchFlavor (cfg : Configuration) (flavorName : String) (e : Engine)
    (w : World) : Except (SwitchError × Engine × World) (Engine × World) :=
  match lookupFlavor cfg flavorName with
  | none => .error (.notConfigured flavorName, e, w)
  | some fc =>
    if !fc.active then .error (.inactive flavorName, e, w)
    else
      match validateFlavorStructure cfg w.fs flavorName with
      | .error err => .error (err, e, w)
      | .ok _ =>
        match
          (if truthy e.currentFlavor then
            restoreOriginalFiles cfg e.state w.fs
          else .ok w.fs) with
        | .error (err, fsE) => .error (err, e, { w with fs := fsE })
        | .ok fsR =>
          match
            (if !truthy e.currentFlavor then
              backupOriginalFiles cfg e { w with fs := fsR }
            else .ok (e, { w with fs := fsR })) with
          | .error (err, fsE) => .error (err, e, { w with fs := fsE })
          | .ok (e2, w2) =>
            match applyFlavor cfg flavorName w2.fs with
            | .error (err, fs') => .error (err, e2, { w2 with fs := fs' })
            | .ok fs' =>
              let st := { e2.state with currentFlavor := some flavorName }
              let e3 : Engine := ⟨st, some flavorName⟩
              let w3 := saveState st { w2 with fs := fs' }
              .ok (e3, updateGitignore cfg (some flavorName) w3)

/-- `resetFlavor`: no-op when no flavor is active; otherwise restore the
originals (which can throw), clear and persist the state, delete the backup
root, rewrite `.gitignore`. -/
def resetFlavor (cfg : Configuration) (e : Engine) (w : World) :
    Except (SwitchError × Engine × World) (Engine × World) :=
  if !truthy e.currentFlavor then .ok (e, w)
  else
    match restoreOriginalFiles cfg e.state w.fs with
    | .error (err, fsE) => .error (err, e, { w with fs := fsE })
    | .ok fs1 =>
      let st : State := ⟨none, []⟩
      let w2 := saveState st { w with fs := fs1 }
      let fs2 :=
        if pathExists w2.fs BACKUP_ROOT then removeTree w2.fs BACKUP_ROOT
        else w2.fs
      .ok (⟨st, none⟩, updateGitignore cfg none { w2 with fs := fs2 })

/-- The guard in `interactiveSwitch` that runs before the engine is invoked:
a selection equal to `this.currentFlavor` is refused. -/
def interactiveAllowsSwitch (e : Engine) (selected : String) : Bool :=
  !(e.currentFlavor == some selected)

/-! ## Observables used by the theorems -/

/-- The part of the previous ignore-file content that `updateGitignore`
keeps: everything before the marker (trailing whitespace trimmed), or the
whole content when no marker is present. -/
def gitignoreBase (content : List Char) : List Char :=
  match firstMatch GITIGNORE_MARKER content with
  | some i => trimEnd (content.take i)
  | none => content

/-- Everything `updateGitignore` writes after the marker line. -/
def gitignoreTail (cfg : Configuration) (currentFlavor : Option String) :
    List Char :=
  '\n' :: joinStrings ['\n']
    (STATE_FILE.data :: (BACKUP_DIR ++ "/").data ::
      (if truthy currentFlavor then
        cfg.mappings.map (fun m => (renderPath m.target).data)
      else []))

/-- Two paths overlap when one is an ancestor-or-equal of the other; the
subtrees they denote then share entries. -/
def Overlap (a b : Path) : Prop := a <+: b ∨ b <+: a

instance (a b : Path) : Decidable (Overlap a b) := by
  unfold Overlap
  infer_instance

/-- A well-formed filesystem has no entries below a missing path and no
entries below a regular file. -/
def TreeLike (fs : FS) : Prop :=
  (∀ p r, fs p = none → fs (p ++ r) = none) ∧
  (∀ p b r, fs p = some (FsNode.file b) → r ≠ [] → fs (p ++ r) = none)

/-- Are two cells compatible for an overwriting copy?  `fs.copy` throws
exactly when a source file meets an existing directory or a source
directory an existing file. -/
def compatNode : Option FsNode → Option FsNode → Bool
  | some (FsNode.file _), some FsNode.dir => false
  | some FsNode.dir, some (FsNode.file _) => false
  | _, _ => true

/-- No file/directory kind clash anywhere between the subtree at `a` and
the subtree at `b`: the condition under which `fs.copy(a, b, {overwrite:
true})` does not throw.  The engine theorems assume it for every copy their
run performs, confining them to the executions the program completes. -/
def NoClash (fs : FS) (a b : Path) : Prop :=
  ∀ r, compatNode (fs (a ++ r)) (fs (b ++ r)) = true

/-- The `FileInfo` that `backupOriginalFiles` records for mapping `m` when
the filesystem reads `fs`. -/
def backupRecord (cfg : Configuration) (fs : FS) (m : Mapping) : FileInfo :=
  if pathExists fs (cfg.projectRoot ++ m.target) then
    ⟨getFileHash fs (cfg.projectRoot ++ m.target), true, m.type⟩
  else ⟨none, false, m.type⟩

/-- The filesystem carried by an apply-pass outcome (final on success, the
partially mutated one on failure). -/
def exceptFS : Except (SwitchError × FS) FS → FS
  | .ok fs => fs
  | .error (_, fs) => fs

/-- Sanity hypothesis for the round-trip theorems: mapping targets denote
pairwise disjoint subtrees, none of which overlaps the dedicated backup
root or the flavors root. -/
def TargetsDisjoint (cfg : Configuration) : Prop :=
  cfg.mappings.Pairwise
    (fun m m' => ¬ Overlap (cfg.projectRoot ++ m.target)
      (cfg.projectRoot ++ m'.target)) ∧
  (∀ m ∈ cfg.mappings, ¬ Overlap (cfg.projectRoot ++ m.target) BACKUP_ROOT) ∧
  ∀ m ∈ cfg.mappings, ¬ Overlap (cfg.projectRoot ++ m.target) FLAVORS_ROOT

/-! ## Finite example filesystems and concrete scenarios -/

/-- A finite filesystem given by an explicit list of entries. -/
def fsOfList (entries : List (Path × FsNode)) : FS := fun p =>
  (entries.find? (fun ent => ent.1 = p)).map Prod.snd

/-- Decidable tree-shape check for a finite entry list: every strict prefix
of an entry's path is itself an entry, and no entry strictly extends a
file entry.  Sufficient for `TreeLike` (`treeLike_of_treeShape`). -/
def treeShape (entries : List (Path × FsNode)) : Bool :=
  entries.all fun ent =>
    (List.range ent.1.length).all
      (fun i => (entries.find? (fun e2 => e2.1 = ent.1.take i)).isSome) &&
    (match ent.2 with
     | FsNode.file _ =>
         entries.all (fun e2 =>
           if ent.1.isPrefixOf e2.1 ∧ e2.1 ≠ ent.1 then false else true)
     | FsNode.dir => true)

/-- Entries of the §8 example filesystem: an original `src/logo.png`, a
`brands/brand-a` flavor carrying `logo.png` and a `gen` directory, and a
`brands/brand-b` flavor carrying `logo.png`. -/
def exampleEntries : List (Path × FsNode) :=
  [([], FsNode.dir),
   (["src"], FsNode.dir),
   (["src", "logo.png"], FsNode.file [1]),
   (["brands"], FsNode.dir),
   (["brands", "brand-a"], FsNode.dir),
   (["brands", "brand-a", "logo.png"], FsNode.file [9]),
   (["brands", "brand-a", "gen"], FsNode.dir),
   (["brands", "brand-b"], FsNode.dir),
   (["brands", "brand-b", "logo.png"], FsNode.file [7])]

/-- The §8 example filesystem. -/
def exampleFs : FS := fsOfList exampleEntries

/-- Example configuration: one active flavor `brand-a` with the single
required mapping `logo.png -> src/logo.png`. -/
def exampleCfg : Configuration :=
  ⟨"1.0.0", [], [("brand-a", ⟨"Brand A", none, true⟩)],
    [⟨["logo.png"], ["src", "logo.png"], FileType.file, true, none⟩],
    ⟨[], []⟩⟩

/-- Example configuration whose directory mapping target
`src/absent/generated/x` does not exist before any flavor is applied. -/
def exampleCfgAbsent : Configuration :=
  ⟨"1.0.0", [], [("brand-a", ⟨"Brand A", none, true⟩)],
    [⟨["gen"], ["src", "absent", "generated", "x"], FileType.directory,
      false, none⟩,
     ⟨["logo.png"], ["src", "logo.png"], FileType.file, true, none⟩],
    ⟨[], []⟩⟩

/-- Example configuration with two active flavors sharing one mapping. -/
def exampleCfg2 : Configuration :=
  ⟨"1.0.0", [], [("brand-a", ⟨"Brand A", none, true⟩),
                 ("brand-b", ⟨"Brand B", none, true⟩)],
    [⟨["logo.png"], ["src", "logo.png"], FileType.file, true, none⟩],
    ⟨[], []⟩⟩

/-- Engine and world after switching `brand-a` in the two-flavor
scenario. -/
def exampleStep1 : Engine × World :=
  match switchFlavor exampleCfg2 "brand-a" ⟨⟨none, []⟩, none⟩
      ⟨exampleFs, none, none⟩ with
  | .ok p => p
  | .error _ => (⟨⟨none, []⟩, none⟩, ⟨exampleFs, none, none⟩)

/-- Engine and world after then switching `brand-b`. -/
def exampleStep2 : Engine × World :=
  match switchFlavor exampleCfg2 "brand-b" exampleStep1.1 exampleStep1.2 with
  | .ok p => p
  | .error _ => exampleStep1

/-- Counterexample scenario: a directory target `styles` holding `a.css`,
and two flavors `x` and `y` whose `styles` directories carry a file
`b.css` that the original target does not have. -/
def cexEntries : List (Path × FsNode) :=
  [([], FsNode.dir),
   (["styles"], FsNode.dir),
   (["styles", "a.css"], FsNode.file [1]),
   (["brands"], FsNode.dir),
   (["brands", "x"], FsNode.dir),
   (["brands", "x", "styles"], FsNode.dir),
   (["brands", "x", "styles", "b.css"], FsNode.file [9]),
   (["brands", "y"], FsNode.dir),
   (["brands", "y", "styles"], FsNode.dir),
   (["brands", "y", "styles", "b.css"], FsNode.file [8])]

/-- The counterexample filesystem. -/
def cexFs : FS := fsOfList cexEntries

/-- The counterexample configuration: one required directory mapping
`styles -> styles` and two active flavors. -/
def cexCfg : Configuration :=
  ⟨"1.0.0", [], [("x", ⟨"X", none, true⟩), ("y", ⟨"Y", none, true⟩)],
    [⟨["styles"], ["styles"], FileType.directory, true, none⟩], ⟨[], []⟩⟩

/-- Engine and world after switching flavor `x` in the counterexample
scenario. -/
def cexStep1 : Engine × World :=
  match switchFlavor cexCfg "x" ⟨⟨none, []⟩, none⟩ ⟨cexFs, none, none⟩ with
  | .ok p => p
  | .error _ => (⟨⟨none, []⟩, none⟩, ⟨cexFs, none, none⟩)

/-- Engine and world after then switching flavor `y`. -/
def cexStep2 : Engine × World :=
  match switchFlavor cexCfg "y" cexStep1.1 cexStep1.2 with
  | .ok p => p
  | .error _ => cexStep1

/-- Engine and world after resetting from the flavor-`x` state. -/
def cexReset1 : Engine × World :=
  match resetFlavor cexCfg cexStep1.1 cexStep1.2 with
  | .ok p => p
  | .error _ => cexStep1

/-- Engine and world after resetting from the flavor-`y` state. -/
def cexReset2 : Engine × World :=
  match resetFlavor cexCfg cexStep2.1 cexStep2.2 with
  | .ok p => p
  | .error _ => cexStep2

/-- Entries for the C5 partial-application scenario: the flavor carries
only the optional `a.txt`, not the required `logo.png`. -/
def c5Entries : List (Path × FsNode) :=
  [([], FsNode.dir),
   (["brands"], FsNode.dir),
   (["brands", "brand-a"], FsNode.dir),
   (["brands", "brand-a", "a.txt"], FsNode.file [1])]

/-- The C5 scenario filesystem. -/
def c5Fs : FS := fsOfList c5Entries

/-- The C5 scenario configuration: an optional mapping followed by a
required one. -/
def c5Cfg : Configuration :=
  ⟨"1.0.0", [], [("brand-a", ⟨"A", none, true⟩)],
    [⟨["a.txt"], ["out", "a.txt"], FileType.file, false, none⟩,
     ⟨["logo.png"], ["out", "logo.png"], FileType.file, true, none⟩],
    ⟨[], []⟩⟩

/-! ## Path and filesystem-primitive lemmas -/

theorem isPrefixOf_eq {a b : Path} : a.isPrefixOf b = true ↔ a <+: b :=
  List.isPrefixOf_iff_prefix

theorem prefixComparable {a b q : Path} (ha : a <+: q) (hb : b <+: q) :
    Overlap a b :=
  List.prefix_or_prefix_of_prefix ha hb

theorem notOverlap_not_prefix_left {a b q : Path} (h : ¬ Overlap a b)
    (ha : a <+: q) : ¬ b <+: q :=
  fun hb => h (prefixComparable ha hb)

theorem notOverlap_not_ancestor {a b q : Path} (h : ¬ Overlap a b)
    (ha : a <+: q) : ¬ q <+: b :=
  fun hq => h (Or.inl (ha.trans hq))

theorem notOverlap_of_region {a b q : Path} (h : ¬ Overlap a b)
    (ha : a <+: q) : ¬ Overlap q b := by
  rintro (hq | hq)
  · exact h (Or.inl (ha.trans hq))
  · exact h (prefixComparable ha hq)

theorem overlap_append_left {a t t' : Path} (h : Overlap (a ++ t) (a ++ t')) :
    Overlap t t' := by
  rcases h with h | h
  · exact Or.inl ((List.prefix_append_right_inj a).mp h)
  · exact Or.inr ((List.prefix_append_right_inj a).mp h)

theorem nodeOr_some (n : FsNode) (b : Option FsNode) :
    nodeOr (some n) b = some n := rfl

theorem nodeOr_none (b : Option FsNode) : nodeOr none b = b := rfl

theorem copyTree_out {fs : FS} {src dst q : Path} (h : ¬ dst <+: q) :
    copyTree fs src dst q = fs q := by
  simp only [copyTree]
  rw [if_neg]
  simpa [isPrefixOf_eq] using h

theorem copyTree_in (fs : FS) (src dst r : Path) :
    copyTree fs src dst (dst ++ r) =
      nodeOr (fs (src ++ r)) (fs (dst ++ r)) := by
  simp only [copyTree]
  rw [if_pos (isPrefixOf_eq.mpr (List.prefix_append dst r))]
  rw [List.drop_left]

theorem removeTree_out {fs : FS} {p q : Path} (h : ¬ p <+: q) :
    removeTree fs p q = fs q := by
  simp only [removeTree]
  rw [if_neg]
  simpa [isPrefixOf_eq] using h

theorem removeTree_in {fs : FS} {p q : Path} (h : p <+: q) :
    removeTree fs p q = none := by
  simp only [removeTree]
  rw [if_pos]
  simpa [isPrefixOf_eq] using h

theorem dropEntry_self (fs : FS) (p : Path) : dropEntry fs p p = none := by
  simp [dropEntry]

theorem dropEntry_out {fs : FS} {p q : Path} (h : q ≠ p) :
    dropEntry fs p q = fs q := by
  simp [dropEntry, h]

theorem unlinkFile_ok_file {fs : FS} {p : Path} {b : List Nat}
    (h : fs p = some (FsNode.file b)) :
    unlinkFile fs p = .ok (dropEntry fs p) := by
  simp [unlinkFile, h]

theorem unlinkFile_ok_inv {fs fs' : FS} {p : Path}
    (h : unlinkFile fs p = .ok fs') : fs' = dropEntry fs p := by
  unfold unlinkFile at h
  rcases hp : fs p with _ | n
  · rw [hp] at h
    exact absurd h (by simp)
  · cases n with
    | file b =>
        rw [hp] at h
        simpa using h.symm
    | dir =>
        rw [hp] at h
        exact absurd h (by simp)

theorem unlinkFile_error_shape {fs : FS} {p : Path} {err : SwitchError}
    (h : unlinkFile fs p = .error err) :
    err = .isDirectory p ∨ err = .noEntry p := by
  unfold unlinkFile at h
  rcases hp : fs p with _ | n
  · rw [hp] at h
    simp only [Except.error.injEq] at h
    exact Or.inr h.symm
  · cases n with
    | file b =>
        rw [hp] at h
        exact absurd h (by simp)
    | dir =>
        rw [hp] at h
        simp only [Except.error.injEq] at h
        exact Or.inl h.symm

theorem ensureFill_out {fs : FS} {d q : Path} (h : ¬ q <+: d) :
    ensureFill fs d q = fs q := by
  simp only [ensureFill]
  rw [if_neg]
  rintro ⟨-, hq, -⟩
  exact h (isPrefixOf_eq.mp hq)

theorem ensureFill_some {fs : FS} {d q : Path} (h : (fs q).isSome) :
    ensureFill fs d q = fs q := by
  simp only [ensureFill]
  rw [if_neg]
  rintro ⟨-, -, hq⟩
  rw [Option.isNone_iff_eq_none] at hq
  rw [hq] at h
  simp at h

theorem isFileNode_ensureFill (fs : FS) (d q : Path) :
    isFileNode (ensureFill fs d q) = isFileNode (fs q) := by
  simp only [ensureFill]
  split_ifs with h
  · obtain ⟨-, -, hnone⟩ := h
    rw [Option.isNone_iff_eq_none] at hnone
    rw [hnone]
    rfl
  · rfl

theorem mem_pathPrefixes {q d : Path} :
    q ∈ pathPrefixes d ↔ q ≠ [] ∧ q <+: d := by
  unfold pathPrefixes
  constructor
  · intro hq
    obtain ⟨i, hi, he⟩ := List.mem_map.mp hq
    have hi' := List.mem_range.mp hi
    subst he
    refine ⟨?_, List.take_prefix _ _⟩
    have hlen : (d.take (i + 1)).length = i + 1 := by
      rw [List.length_take]
      omega
    intro hnil
    rw [hnil] at hlen
    simp at hlen
  · rintro ⟨hne, hpre⟩
    have hq0 : q.length ≠ 0 :=
      fun h0 => hne (List.eq_nil_of_length_eq_zero h0)
    refine List.mem_map.mpr ⟨q.length - 1, ?_, ?_⟩
    · rw [List.mem_range]
      have hlen := hpre.length_le
      omega
    · have hq : q.length - 1 + 1 = q.length := by omega
      rw [hq]
      exact (List.prefix_iff_eq_take.mp hpre).symm

theorem ensureDirs_ok {fs : FS} {d : Path}
    (h : (pathPrefixes d).all (fun q => !isFileNode (fs q)) = true) :
    ensureDirs fs d = .ok (ensureFill fs d) := by
  have hnone : (pathPrefixes d).find? (fun q => isFileNode (fs q)) = none := by
    rw [List.find?_eq_none]
    intro q hq
    have h2 := List.all_eq_true.mp h q hq
    simpa using h2
  unfold ensureDirs
  rw [hnone]

theorem ensureDirs_ok_inv {fs fs' : FS} {d : Path}
    (h : ensureDirs fs d = .ok fs') : fs' = ensureFill fs d := by
  unfold ensureDirs at h
  rcases hf : (pathPrefixes d).find? (fun q => isFileNode (fs q)) with _ | q
  · rw [hf] at h
    simpa using h.symm
  · rw [hf] at h
    exact absurd h (by simp)

theorem ensureDirs_error_shape {fs : FS} {d : Path} {err : SwitchError}
    (h : ensureDirs fs d = .error err) : ∃ p, err = .notDirectory p := by
  unfold ensureDirs at h
  rcases hf : (pathPrefixes d).find? (fun q => isFileNode (fs q)) with _ | q
  · rw [hf] at h
    exact absurd h (by simp)
  · rw [hf] at h
    simp only [Except.error.injEq] at h
    exact ⟨q, h.symm⟩

theorem nonempty_prefix_head {x : String} {t q : Path} (hne : q ≠ [])
    (h : q <+: x :: t) : [x] <+: q := by
  rcases q with _ | ⟨c, q'⟩
  · exact absurd rfl hne
  · obtain ⟨hc, -⟩ := List.cons_prefix_cons.mp h
    subst hc
    exact ⟨q', rfl⟩

theorem append_eq_self_nil {p r : Path} (h : p ++ r = p) : r = [] := by
  have h2 : p ++ r = p ++ [] := by
    rw [h, List.append_nil]
  exact List.append_cancel_left h2

theorem compatNode_none_left (x : Option FsNode) :
    compatNode none x = true := by
  cases x with
  | none => rfl
  | some n => cases n <;> rfl

theorem compatNode_none_right (x : Option FsNode) :
    compatNode x none = true := by
  cases x with
  | none => rfl
  | some n => cases n <;> rfl

/-! ## Finite filesystems: sufficient conditions for the sanity predicates -/

theorem fsOfList_some_mem {entries : List (Path × FsNode)} {p : Path}
    {n : FsNode} (h : fsOfList entries p = some n) :
    ∃ ent ∈ entries, ent.1 = p ∧ ent.2 = n := by
  unfold fsOfList at h
  rcases hf : entries.find? (fun ent => ent.1 = p) with _ | ent
  · rw [hf] at h
    simp at h
  · rw [hf] at h
    simp only [Option.map_some', Option.some.injEq] at h
    have hmem := List.mem_of_find?_eq_some hf
    have hp := List.find?_some hf
    simp only [decide_eq_true_eq] at hp
    exact ⟨ent, hmem, hp, h⟩

theorem fsOfList_isSome_mem {entries : List (Path × FsNode)} {p : Path}
    (h : (fsOfList entries p).isSome = true) :
    ∃ ent ∈ entries, ent.1 = p := by
  rcases ho : fsOfList entries p with _ | n
  · rw [ho] at h
    simp at h
  · obtain ⟨ent, hmem, hent, -⟩ := fsOfList_some_mem ho
    exact ⟨ent, hmem, hent⟩

theorem treeLike_of_treeShape {entries : List (Path × FsNode)}
    (h : treeShape entries = true) : TreeLike (fsOfList entries) := by
  constructor
  · intro p r hp
    rcases ho : fsOfList entries (p ++ r) with _ | n
    · rfl
    exfalso
    obtain ⟨ent, hmem, hent1, -⟩ := fsOfList_some_mem ho
    rcases Nat.lt_or_ge p.length ent.1.length with hlt | hge
    · have hTS := List.all_eq_true.mp h ent hmem
      rw [Bool.and_eq_true] at hTS
      have h1 := List.all_eq_true.mp hTS.1 p.length (List.mem_range.mpr hlt)
      have htake : ent.1.take p.length = p := by
        rw [hent1]
        exact List.take_left p r
      rw [htake] at h1
      unfold fsOfList at hp
      rcases hf : entries.find? (fun e2 => e2.1 = p) with _ | e2
      · rw [hf] at h1
        simp at h1
      · rw [hf] at hp
        simp at hp
    · have hlen := congrArg List.length hent1
      rw [List.length_append] at hlen
      have hr : r = [] := by
        have : r.length = 0 := by omega
        exact List.eq_nil_of_length_eq_zero this
      rw [hr, List.append_nil] at ho
      rw [ho] at hp
      exact absurd hp (by simp)
  · intro p b r hp hr
    rcases ho : fsOfList entries (p ++ r) with _ | n
    · rfl
    exfalso
    obtain ⟨ent2, hmem2, hent21, -⟩ := fsOfList_some_mem ho
    obtain ⟨ent, hmem, hent1, hentf⟩ := fsOfList_some_mem hp
    have hTS := List.all_eq_true.mp h ent hmem
    rw [Bool.and_eq_true, hentf] at hTS
    have h2 := List.all_eq_true.mp hTS.2 ent2 hmem2
    rw [if_pos ?hc] at h2
    case hc =>
      constructor
      · rw [hent1, hent21]
        exact isPrefixOf_eq.mpr (List.prefix_append p r)
      · rw [hent1, hent21]
        intro heq
        exact hr (append_eq_self_nil heq)
    simp at h2

theorem fsOfList_region_none {entries : List (Path × FsNode)} {base : Path}
    (h : entries.all (fun ent => !base.isPrefixOf ent.1) = true) :
    ∀ q, base <+: q → fsOfList entries q = none := by
  intro q hq
  rcases ho : fsOfList entries q with _ | n
  · rfl
  exfalso
  obtain ⟨ent, hmem, hent1, -⟩ := fsOfList_some_mem ho
  have h1 := List.all_eq_true.mp h ent hmem
  rw [Bool.not_eq_true'] at h1
  rw [hent1] at h1
  exact absurd (isPrefixOf_eq.mpr hq) (by simp [h1])

theorem noClash_of_list {entries : List (Path × FsNode)} {a b : Path}
    (h : entries.all (fun ent =>
      !a.isPrefixOf ent.1 ||
        compatNode (fsOfList entries ent.1)
          (fsOfList entries (b ++ ent.1.drop a.length))) = true) :
    NoClash (fsOfList entries) a b := by
  intro r
  rcases ha : fsOfList entries (a ++ r) with _ | n
  · exact compatNode_none_left _
  obtain ⟨ent, hmem, hent1, -⟩ := fsOfList_some_mem ha
  have h1 := List.all_eq_true.mp h ent hmem
  rw [Bool.or_eq_true] at h1
  rcases h1 with h1 | h1
  · rw [Bool.not_eq_true'] at h1
    rw [hent1] at h1
    exact absurd (isPrefixOf_eq.mpr (List.prefix_append a r)) (by simp [h1])
  · rw [hent1] at h1
    rw [List.drop_left] at h1
    rw [ha] at h1
    exact h1

/-! ## C8: the content hasher -/

theorem compressBlock_length (h b : List Nat) :
    (compressBlock h b).length = 8 := by
  simp only [compressBlock]
  rfl

theorem foldl_compressBlock_length (blocks : List (List Nat)) :
    ∀ h : List Nat, (blocks.foldl compressBlock h).length = 8 ∨ blocks = [] := by
  induction blocks with
  | nil => exact fun h => Or.inr rfl
  | cons b rest ih =>
      intro h
      rcases ih (compressBlock h b) with hlen | hnil
      · exact Or.inl (by simpa using hlen)
      · subst hnil
        exact Or.inl (by simpa using compressBlock_length h b)

theorem bytesBE_length (k n : Nat) : (bytesBE k n).length = k := by
  simp [bytesBE]

theorem foldr_bytes_length (H : List Nat) :
    (H.foldr (fun w acc => bytesBE 4 w ++ acc) []).length = 4 * H.length := by
  induction H with
  | nil => simp
  | cons w rest ih =>
      simp [ih, bytesBE_length]
      ring

theorem padMessage_ne_nil (msg : List Nat) : padMessage msg ≠ [] := by
  simp [padMessage]

theorem toBlocks_ne_nil {l : List Nat} (h : l ≠ []) : toBlocks l ≠ [] := by
  cases l with
  | nil => exact absurd rfl h
  | cons x xs => simp [toBlocks]

/-- The SHA-256 digest of any byte sequence is 32 bytes (256 bits) long. -/
theorem sha256_length (msg : List Nat) : (sha256 msg).length = 32 := by
  simp only [sha256]
  rw [foldr_bytes_length]
  rcases foldl_compressBlock_length (toBlocks (padMessage msg)) sha256H0 with
    hlen | hnil
  · rw [hlen]
  · exact absurd hnil (toBlocks_ne_nil (padMessage_ne_nil msg))

theorem hexString_length (bytes : List Nat) :
    (hexString bytes).length = 2 * bytes.length := by
  induction bytes with
  | nil => simp [hexString]
  | cons b rest ih =>
      simp [hexString] at ih ⊢
      omega

/-- C8: the content hasher returns `absent` when the path does not exist or
is a directory; otherwise it returns the 256-bit SHA-256 digest (64 hex
characters) of the file's exact byte content, and the result is determined
by the byte content alone. -/
theorem claim_C8 (fs fs' : FS) (p p' : Path) :
    (fs p = none → getFileHash fs p = none) ∧
    (fs p = some FsNode.dir → getFileHash fs p = none) ∧
    (∀ bytes, fs p = some (FsNode.file bytes) →
      getFileHash fs p = some (hexString (sha256 bytes)) ∧
      ∀ digest, getFileHash fs p = some digest → digest.length = 64) ∧
    (∀ bytes, fs p = some (FsNode.file bytes) →
      fs' p' = some (FsNode.file bytes) →
      getFileHash fs p = getFileHash fs' p') := by
  refine ⟨fun h => by simp [getFileHash, h], fun h => by simp [getFileHash, h],
    fun bytes h => ⟨by simp [getFileHash, h], fun digest hd => ?_⟩,
    fun bytes h h' => by simp [getFileHash, h, h']⟩
  simp [getFileHash, h] at hd
  rw [← hd, hexString_length, sha256_length]

/-- Closed witness for C8 at a one-file filesystem. -/
theorem claim_C8_witness :
    getFileHash (fun q => if q = ["a"] then some (FsNode.file [7]) else none)
        ["b"] = none ∧
    ∀ digest,
      getFileHash (fun q => if q = ["a"] then some (FsNode.file [7]) else none)
          ["a"] = some digest → digest.length = 64 := by
  constructor
  · exact (claim_C8 (fun q => if q = ["a"] then some (FsNode.file [7]) else none)
      (fun _ => none) ["b"] []).1 (by simp)
  · exact ((claim_C8 (fun q => if q = ["a"] then some (FsNode.file [7]) else none)
      (fun _ => none) ["a"] []).2.2.1 [7] (by simp)).2

/-! ## C9: ledger load never fails the caller -/

/-- C9: a missing state file and an unparseable state file both make
`loadState` return the fresh empty ledger (the source logs a warning in the
unparseable case and continues). -/
theorem claim_C9 (w : World) :
    (w.ledgerFile = none → loadState w = ⟨⟨none, []⟩, none⟩) ∧
    (w.ledgerFile = some none → loadState w = ⟨⟨none, []⟩, none⟩) :=
  ⟨fun h => by simp [loadState, h], fun h => by simp [loadState, h]⟩

/-- Closed witness for C9: one absent and one corrupt ledger file. -/
theorem claim_C9_witness :
    loadState ⟨fun _ => none, none, none⟩ = ⟨⟨none, []⟩, none⟩ ∧
    loadState ⟨fun _ => none, some none, none⟩ = ⟨⟨none, []⟩, none⟩ :=
  ⟨(claim_C9 ⟨fun _ => none, none, none⟩).1 rfl,
   (claim_C9 ⟨fun _ => none, some none, none⟩).2 rfl⟩

/-! ## C4: occurrence counting and the synchronizer -/

theorem charPrefix_eq {a b : List Char} : a.isPrefixOf b = true ↔ a <+: b :=
  List.isPrefixOf_iff_prefix

theorem countOcc_nil (pat : List Char) : countOcc pat [] = 0 := rfl

theorem countOcc_cons_pos {pat s : List Char} {c : Char} (h : pat <+: c :: s) :
    countOcc pat (c :: s) = 1 + countOcc pat s := by
  simp only [countOcc]
  rw [if_pos (charPrefix_eq.mpr h)]

theorem countOcc_cons_neg {pat s : List Char} {c : Char}
    (h : ¬ pat <+: c :: s) : countOcc pat (c :: s) = countOcc pat s := by
  simp only [countOcc]
  rw [if_neg fun hb => h (charPrefix_eq.mp hb)]
  exact Nat.zero_add _

theorem firstMatch_cons_pos {pat s : List Char} {c : Char}
    (h : pat <+: c :: s) : firstMatch pat (c :: s) = some 0 := by
  simp only [firstMatch]
  rw [if_pos (charPrefix_eq.mpr h)]

theorem firstMatch_cons_neg {pat s : List Char} {c : Char}
    (h : ¬ pat <+: c :: s) :
    firstMatch pat (c :: s) = (firstMatch pat s).map (· + 1) := by
  simp only [firstMatch]
  rw [if_neg fun hb => h (charPrefix_eq.mp hb)]

theorem countOcc_short {pat : List Char} :
    ∀ {s : List Char}, s.length < pat.length → countOcc pat s = 0 := by
  intro s
  induction s with
  | nil => intro _; rfl
  | cons c rest ih =>
      intro h
      have h' : rest.length < pat.length := by
        simp only [List.length_cons] at h
        omega
      rw [countOcc_cons_neg, ih h']
      intro hpre
      have hle := hpre.length_le
      simp only [List.length_cons] at hle h
      omega

theorem prefix_of_append_of_le {pat u v : List Char}
    (h : pat <+: u ++ v) (hle : pat.length ≤ u.length) : pat <+: u := by
  have heq := List.prefix_iff_eq_take.mp h
  rw [List.take_append_eq_append_take, Nat.sub_eq_zero_of_le hle,
    List.take_zero, List.append_nil] at heq
  exact heq ▸ List.take_prefix pat.length u

theorem mem_of_prefix_split {pat u v : List Char} {c : Char}
    (h : pat <+: u ++ c :: v) (hgt : u.length < pat.length) : c ∈ pat := by
  have heq := List.prefix_iff_eq_take.mp h
  rw [List.take_append_eq_append_take,
    List.take_of_length_le (Nat.le_of_lt hgt)] at heq
  obtain ⟨k, hk⟩ : ∃ k, pat.length - u.length = k + 1 :=
    ⟨pat.length - u.length - 1, by omega⟩
  rw [hk] at heq
  simp only [List.take_succ_cons] at heq
  rw [heq]
  exact List.mem_append_right u (List.mem_cons_self c _)

theorem consHeadMem {pat s : List Char} {c : Char}
    (hp : pat ≠ []) (h : pat <+: c :: s) : c ∈ pat := by
  rcases pat with _ | ⟨p₀, prest⟩
  · exact absurd rfl hp
  · exact (List.cons_prefix_cons.mp h).1 ▸ List.mem_cons_self p₀ prest

theorem prefix_append_cons_iff {pat u v : List Char} {c : Char}
    (hc : c ∉ pat) (hp : pat ≠ []) : pat <+: u ++ c :: v ↔ pat <+: u := by
  constructor
  · intro h
    rcases le_or_lt pat.length u.length with hle | hgt
    · exact prefix_of_append_of_le h hle
    · exact absurd (mem_of_prefix_split h hgt) hc
  · intro h
    exact h.trans (List.prefix_append u (c :: v))

theorem countOcc_append_cons {pat : List Char} {c : Char}
    (hc : c ∉ pat) (hp : pat ≠ []) :
    ∀ (u v : List Char), countOcc pat (u ++ c :: v) =
      countOcc pat u + countOcc pat v := by
  intro u
  induction u with
  | nil =>
      intro v
      rw [List.nil_append, countOcc_nil, countOcc_cons_neg, Nat.zero_add]
      intro hpre
      exact hc (consHeadMem hp hpre)
  | cons x u' ih =>
      intro v
      rw [List.cons_append]
      by_cases hb : pat <+: x :: u'
      · have h1 : pat <+: x :: (u' ++ c :: v) := by
          have := (prefix_append_cons_iff hc hp (u := x :: u') (v := v)).mpr hb
          simpa using this
        rw [countOcc_cons_pos h1, ih v, countOcc_cons_pos hb]
        omega
      · have h1 : ¬ pat <+: x :: (u' ++ c :: v) := by
          intro hpre
          exact hb ((prefix_append_cons_iff hc hp).mp (by simpa using hpre))
        rw [countOcc_cons_neg h1, ih v, countOcc_cons_neg hb]

theorem countOcc_self {pat : List Char} (hp : pat ≠ []) :
    countOcc pat pat = 1 := by
  rcases hpat : pat with _ | ⟨p₀, rest⟩
  · exact absurd hpat hp
  · rw [← hpat]
    nth_rewrite 2 [hpat]
    rw [countOcc_cons_pos (hpat ▸ List.prefix_refl pat),
      countOcc_short (hpat ▸ by simp)]

theorem countOcc_le_append (pat u t : List Char) :
    countOcc pat u ≤ countOcc pat (u ++ t) := by
  induction u with
  | nil => simp [countOcc_nil]
  | cons x u' ih =>
      rw [List.cons_append]
      by_cases hb : pat <+: x :: u'
      · rw [countOcc_cons_pos hb, countOcc_cons_pos
          (by simpa using hb.trans (List.prefix_append (x :: u') t))]
        omega
      · rw [countOcc_cons_neg hb]
        by_cases hb' : pat <+: x :: (u' ++ t)
        · rw [countOcc_cons_pos hb']
          omega
        · rw [countOcc_cons_neg hb']
          exact ih

theorem countOcc_zero_of_prefix {pat p s : List Char}
    (hpre : p <+: s) (h : countOcc pat s = 0) : countOcc pat p = 0 := by
  obtain ⟨t, rfl⟩ := hpre
  have := countOcc_le_append pat p t
  omega

theorem firstMatch_none_countOcc {pat : List Char} :
    ∀ {s : List Char}, firstMatch pat s = none → countOcc pat s = 0 := by
  intro s
  induction s with
  | nil => intro _; rfl
  | cons c rest ih =>
      intro h
      by_cases hb : pat <+: c :: rest
      · rw [firstMatch_cons_pos hb] at h
        exact absurd h (by simp)
      · rw [firstMatch_cons_neg hb] at h
        rw [countOcc_cons_neg hb]
        exact ih (by simpa using h)

theorem firstMatch_take_countOcc {pat : List Char} :
    ∀ {s : List Char} {i : Nat}, firstMatch pat s = some i →
      countOcc pat (s.take i) = 0 := by
  intro s
  induction s with
  | nil =>
      intro i h
      simp [countOcc_nil]
  | cons c rest ih =>
      intro i h
      by_cases hb : pat <+: c :: rest
      · rw [firstMatch_cons_pos hb] at h
        rw [← Option.some_inj.mp h]
        rfl
      · rw [firstMatch_cons_neg hb] at h
        simp only [Option.map_eq_some'] at h
        obtain ⟨j, hj, rfl⟩ := h
        have hneg : ¬ pat <+: c :: rest.take j := fun hpre =>
          hb (hpre.trans
            (List.cons_prefix_cons.mpr ⟨rfl, List.take_prefix j rest⟩))
        rw [List.take_succ_cons, countOcc_cons_neg hneg, ih hj]

theorem trimEnd_isPrefix (s : List Char) : trimEnd s <+: s := by
  have h1 : (s.reverse.dropWhile isJsWhitespace) <:+ s.reverse :=
    List.dropWhile_suffix isJsWhitespace
  have h2 := List.reverse_prefix.mpr h1
  rw [List.reverse_reverse] at h2
  exact h2

theorem dropWhile_self_idem (p : Char → Bool) :
    ∀ l : List Char, (l.dropWhile p).dropWhile p = l.dropWhile p := by
  intro l
  induction l with
  | nil => rfl
  | cons x rest ih =>
      rw [List.dropWhile_cons]
      rcases hx : p x with _ | _
      · simp only [Bool.false_eq_true, if_false]
        rw [List.dropWhile_cons, hx]
        simp
      · simpa using ih

theorem trimEnd_idem (s : List Char) : trimEnd (trimEnd s) = trimEnd s := by
  simp only [trimEnd, List.reverse_reverse]
  rw [dropWhile_self_idem]

theorem trimEnd_append_ws {c : Char} (hc : isJsWhitespace c = true)
    (u : List Char) : trimEnd (u ++ [c]) = trimEnd u := by
  simp only [trimEnd, List.reverse_append, List.reverse_cons, List.reverse_nil,
    List.nil_append, List.singleton_append, List.dropWhile_cons, hc]
  simp

theorem firstMatch_canonical {pat : List Char}
    (hn : ('\n' : Char) ∉ pat) (hp : pat ≠ []) (tail : List Char) :
    ∀ base : List Char, countOcc pat base = 0 →
      firstMatch pat (base ++ '\n' :: '\n' :: (pat ++ tail)) =
        some (base.length + 2) := by
  intro base
  induction base with
  | nil =>
      intro _
      have hstep : ∀ x : List Char, ¬ pat <+: '\n' :: x := fun x hpre =>
        hn (consHeadMem hp hpre)
      rw [List.nil_append, firstMatch_cons_neg (hstep _),
        firstMatch_cons_neg (hstep _)]
      rcases pat with _ | ⟨p₀, prest⟩
      · exact absurd rfl hp
      · rw [List.cons_append, firstMatch_cons_pos
          (List.cons_prefix_cons.mpr ⟨rfl, List.prefix_append prest tail⟩)]
        rfl
  | cons x b' ih =>
      intro h0
      have hb : ¬ pat <+: x :: b' := by
        intro hpre
        rw [countOcc_cons_pos hpre] at h0
        omega
      have hb' : countOcc pat b' = 0 := by
        rw [countOcc_cons_neg hb] at h0
        exact h0
      have hneg : ¬ pat <+: x :: (b' ++ '\n' :: '\n' :: (pat ++ tail)) := by
        intro hpre
        exact hb ((prefix_append_cons_iff hn hp).mp (by simpa using hpre))
      rw [List.cons_append, firstMatch_cons_neg hneg, ih hb']
      simp only [Option.map_some', Option.some.injEq, List.length_cons]

theorem joinStrings_countOcc_zero {pat : List Char}
    (hn : ('\n' : Char) ∉ pat) (hp : pat ≠ []) :
    ∀ ls : List (List Char), (∀ x ∈ ls, countOcc pat x = 0) →
      countOcc pat (joinStrings ['\n'] ls) = 0
  | [], _ => rfl
  | [x], h => by
      have hx := h x (by simp)
      simpa [joinStrings] using hx
  | x :: y :: rest, h => by
      have hx : countOcc pat x = 0 := h x (by simp)
      have hrest := joinStrings_countOcc_zero hn hp (y :: rest)
        (fun z hz => h z (by simp [hz]))
      simp only [joinStrings, List.append_assoc, List.singleton_append]
      rw [countOcc_append_cons hn hp, hx, hrest]

theorem marker_ne_nil : GITIGNORE_MARKER ≠ [] := by decide

theorem newline_not_mem_marker : ('\n' : Char) ∉ GITIGNORE_MARKER := by
  decide

theorem gitignoreOutput_eq (cfg : Configuration) (flavor : Option String)
    (content : List Char) :
    gitignoreOutput cfg flavor (some content) =
      gitignoreBase content ++ '\n' :: '\n' ::
        (GITIGNORE_MARKER ++ gitignoreTail cfg flavor) := by
  simp only [gitignoreOutput, gitignoreBase, gitignoreTail, joinStrings,
    Option.getD_some, List.cons_append, List.nil_append, List.append_assoc,
    List.singleton_append]
  rfl

theorem gitignoreBase_of_some {content : List Char} {i : Nat}
    (h : firstMatch GITIGNORE_MARKER content = some i) :
    gitignoreBase content = trimEnd (content.take i) := by
  unfold gitignoreBase
  rw [h]

theorem countOcc_gitignoreBase (content : List Char) :
    countOcc GITIGNORE_MARKER (gitignoreBase content) = 0 := by
  unfold gitignoreBase
  cases hfm : firstMatch GITIGNORE_MARKER content with
  | none => exact firstMatch_none_countOcc hfm
  | some i =>
      exact countOcc_zero_of_prefix (trimEnd_isPrefix _)
        (firstMatch_take_countOcc hfm)

theorem countOcc_gitignoreTail (cfg : Configuration) (flavor : Option String)
    (hTargets : ∀ m ∈ cfg.mappings,
      countOcc GITIGNORE_MARKER ((renderPath m.target).data) = 0) :
    countOcc GITIGNORE_MARKER (gitignoreTail cfg flavor) = 0 := by
  unfold gitignoreTail
  have h0 := countOcc_append_cons
    newline_not_mem_marker marker_ne_nil [] (joinStrings ['\n']
      (STATE_FILE.data :: (BACKUP_DIR ++ "/").data ::
        (if truthy flavor then
          cfg.mappings.map (fun m => (renderPath m.target).data)
        else [])))
  rw [List.nil_append] at h0
  rw [h0, countOcc_nil, Nat.zero_add]
  apply joinStrings_countOcc_zero newline_not_mem_marker marker_ne_nil
  intro x hx
  simp only [List.mem_cons] at hx
  rcases hx with rfl | rfl | hx
  · decide
  · decide
  · rcases hif : truthy flavor with _ | _
    · rw [hif] at hx
      simp at hx
    · rw [hif] at hx
      simp only [if_true] at hx
      obtain ⟨m, hm, rfl⟩ := List.mem_map.mp hx
      exact hTargets m hm

/-- C4 (amended): with the marker taken from the constants and mapping
targets that do not themselves contain the marker, one synchronizer run
leaves exactly one marker occurrence, and a second run with the same
arguments is byte-identical — provided the initial content either already
contains the marker or carries no trailing whitespace.  (Without that
proviso the second run additionally trims the pre-existing trailing
whitespace, see the counterexample.) -/
theorem claim_C4 (cfg : Configuration) (flavor : Option String)
    (content : List Char)
    (hTargets : ∀ m ∈ cfg.mappings,
      countOcc GITIGNORE_MARKER ((renderPath m.target).data) = 0)
    (hClean : firstMatch GITIGNORE_MARKER content ≠ none ∨
      trimEnd content = content) :
    gitignoreOutput cfg flavor
        (some (gitignoreOutput cfg flavor (some content))) =
      gitignoreOutput cfg flavor (some content) ∧
    countOcc GITIGNORE_MARKER (gitignoreOutput cfg flavor (some content))
      = 1 := by
  have hM1 := marker_ne_nil
  have hM2 := newline_not_mem_marker
  have hbase0 := countOcc_gitignoreBase content
  have hTB : trimEnd (gitignoreBase content) = gitignoreBase content := by
    unfold gitignoreBase
    cases hfm : firstMatch GITIGNORE_MARKER content with
    | none =>
        rcases hClean with h | h
        · exact absurd hfm h
        · exact h
    | some i => exact trimEnd_idem _
  constructor
  · rw [gitignoreOutput_eq cfg flavor content,
      gitignoreOutput_eq cfg flavor (gitignoreBase content ++ '\n' :: '\n' ::
        (GITIGNORE_MARKER ++ gitignoreTail cfg flavor))]
    have hcanon := firstMatch_canonical hM2 hM1 (gitignoreTail cfg flavor)
      (gitignoreBase content) hbase0
    have hbase2 : gitignoreBase (gitignoreBase content ++ '\n' :: '\n' ::
        (GITIGNORE_MARKER ++ gitignoreTail cfg flavor)) =
        gitignoreBase content := by
      rw [gitignoreBase_of_some hcanon]
      have htake : (gitignoreBase content ++ '\n' :: '\n' ::
          (GITIGNORE_MARKER ++ gitignoreTail cfg flavor)).take
            ((gitignoreBase content).length + 2) =
          gitignoreBase content ++ ['\n', '\n'] := by
        rw [List.take_append_eq_append_take]
        simp
      rw [htake]
      have h1 : gitignoreBase content ++ ['\n', '\n'] =
          (gitignoreBase content ++ ['\n']) ++ ['\n'] := by simp
      rw [h1, trimEnd_append_ws (by decide), trimEnd_append_ws (by decide)]
      exact hTB
    rw [hbase2]
  · rw [gitignoreOutput_eq cfg flavor content]
    rw [countOcc_append_cons hM2 hM1, hbase0, Nat.zero_add]
    have h0 := countOcc_append_cons hM2 hM1 []
      (GITIGNORE_MARKER ++ gitignoreTail cfg flavor)
    rw [List.nil_append] at h0
    rw [h0, countOcc_nil, Nat.zero_add]
    unfold gitignoreTail
    rw [countOcc_append_cons hM2 hM1, countOcc_self hM1]
    rw [joinStrings_countOcc_zero hM2 hM1 _ ?_]
    intro x hx
    simp only [List.mem_cons] at hx
    rcases hx with rfl | rfl | hx
    · decide
    · decide
    · rcases hif : truthy flavor with _ | _
      · rw [hif] at hx
        simp at hx
      · rw [hif] at hx
        simp only [if_true] at hx
        obtain ⟨m, hm, rfl⟩ := List.mem_map.mp hx
        exact hTargets m hm

/-- Counterexample to C4 as frozen: the previous ignore-file content
`"a "` has no marker and ends in a space; the first synchronizer run keeps
the space, the second trims it, so the two outputs are not byte-identical. -/
theorem claim_C4_counterexample :
    gitignoreOutput ⟨"1.0.0", [], [], [], ⟨[], []⟩⟩ none
        (some (gitignoreOutput ⟨"1.0.0", [], [], [], ⟨[], []⟩⟩ none
          (some ['a', ' ']))) ≠
      gitignoreOutput ⟨"1.0.0", [], [], [], ⟨[], []⟩⟩ none
        (some ['a', ' ']) := by decide

/-- Closed witness for C4 at a one-mapping configuration, an active flavor
and marker-free previous content. -/
theorem claim_C4_witness :
    gitignoreOutput
        ⟨"1.0.0", [], [],
          [⟨["logo.png"], ["src", "logo.png"], FileType.file, true, none⟩],
          ⟨[], []⟩⟩ (some "brand-a")
        (some (gitignoreOutput
          ⟨"1.0.0", [], [],
            [⟨["logo.png"], ["src", "logo.png"], FileType.file, true, none⟩],
            ⟨[], []⟩⟩ (some "brand-a") (some ['x']))) =
      gitignoreOutput
        ⟨"1.0.0", [], [],
          [⟨["logo.png"], ["src", "logo.png"], FileType.file, true, none⟩],
          ⟨[], []⟩⟩ (some "brand-a") (some ['x']) ∧
    countOcc GITIGNORE_MARKER
      (gitignoreOutput
        ⟨"1.0.0", [], [],
          [⟨["logo.png"], ["src", "logo.png"], FileType.file, true, none⟩],
          ⟨[], []⟩⟩ (some "brand-a") (some ['x'])) = 1 :=
  claim_C4
    ⟨"1.0.0", [], [],
      [⟨["logo.png"], ["src", "logo.png"], FileType.file, true, none⟩],
      ⟨[], []⟩⟩ (some "brand-a") ['x'] (by decide) (Or.inr (by decide))

/-! ## C6: structure validation aggregates all problems -/

/-- C6: when the flavor directory exists and anything required is missing,
validation fails with a single `StructureInvalid` error whose list contains
one message for every absent required file, every absent required
directory, and every required mapping source that is missing — not just the
first problem found. -/
theorem mem_triple_left {α : Type} {a : α} {l1 l2 l3 : List α}
    (h : a ∈ l1) : a ∈ l1 ++ l2 ++ l3 :=
  List.mem_append_left _ (List.mem_append_left _ h)

theorem mem_triple_mid {α : Type} {a : α} {l1 l2 l3 : List α}
    (h : a ∈ l2) : a ∈ l1 ++ l2 ++ l3 :=
  List.mem_append_left _ (List.mem_append_right _ h)

theorem mem_triple_right {α : Type} {a : α} {l1 l2 l3 : List α}
    (h : a ∈ l3) : a ∈ l1 ++ l2 ++ l3 :=
  List.mem_append_right _ h

/-- C6: when the flavor directory exists and anything required is missing,
validation fails with a single `StructureInvalid` error whose list contains
one message for every absent required file, every absent required
directory, and every required mapping source that is missing — not just the
first problem found. -/
theorem claim_C6 (cfg : Configuration) (fs : FS) (flavorName : String)
    (hdir : pathExists fs (FLAVORS_ROOT ++ [flavorName]) = true)
    (hmiss :
      (∃ f ∈ cfg.requiredStructure.files,
        pathExists fs (FLAVORS_ROOT ++ [flavorName] ++ f) = false) ∨
      (∃ d ∈ cfg.requiredStructure.directories,
        pathExists fs (FLAVORS_ROOT ++ [flavorName] ++ d) = false) ∨
      (∃ m ∈ cfg.mappings, m.required = true ∧
        pathExists fs (FLAVORS_ROOT ++ [flavorName] ++ m.source) = false)) :
    ∃ errs, validateFlavorStructure cfg fs flavorName =
        .error (.structureInvalid errs) ∧
      (∀ f ∈ cfg.requiredStructure.files,
        pathExists fs (FLAVORS_ROOT ++ [flavorName] ++ f) = false →
          ("Missing required file: " ++ renderPath f) ∈ errs) ∧
      (∀ d ∈ cfg.requiredStructure.directories,
        pathExists fs (FLAVORS_ROOT ++ [flavorName] ++ d) = false →
          ("Missing required directory: " ++ renderPath d) ∈ errs) ∧
      (∀ m ∈ cfg.mappings, m.required = true →
        pathExists fs (FLAVORS_ROOT ++ [flavorName] ++ m.source) = false →
          ("Missing required mapping source: " ++ renderPath m.source)
            ∈ errs) := by
  refine ⟨(cfg.requiredStructure.files.filter
      (fun f => !pathExists fs (FLAVORS_ROOT ++ [flavorName] ++ f))).map
        (fun f => "Missing required file: " ++ renderPath f) ++
    (cfg.requiredStructure.directories.filter
      (fun d => !pathExists fs (FLAVORS_ROOT ++ [flavorName] ++ d))).map
        (fun d => "Missing required directory: " ++ renderPath d) ++
    (cfg.mappings.filter (fun m => m.required &&
        !pathExists fs (FLAVORS_ROOT ++ [flavorName] ++ m.source))).map
      (fun m => "Missing required mapping source: " ++ renderPath m.source),
    ?_, ?_, ?_, ?_⟩
  · simp only [validateFlavorStructure, hdir, Bool.not_true,
      Bool.false_eq_true, if_false]
    rw [if_neg ?hnc]
    case hnc =>
      intro hemp
      rw [List.isEmpty_iff] at hemp
      rcases hmiss with ⟨f, hf, hmf⟩ | ⟨d, hd, hmd⟩ | ⟨m, hm, hr, hms⟩
      · exact absurd hemp (List.ne_nil_of_mem (mem_triple_left
          (List.mem_map.mpr
            ⟨f, List.mem_filter.mpr ⟨hf, by simpa using hmf⟩, rfl⟩)))
      · exact absurd hemp (List.ne_nil_of_mem (mem_triple_mid
          (List.mem_map.mpr
            ⟨d, List.mem_filter.mpr ⟨hd, by simpa using hmd⟩, rfl⟩)))
      · exact absurd hemp (List.ne_nil_of_mem (mem_triple_right
          (List.mem_map.mpr
            ⟨m, List.mem_filter.mpr ⟨hm, by simp [hr] ; simpa using hms⟩,
              rfl⟩)))
  · intro f hf hmf
    exact mem_triple_left (List.mem_map.mpr
      ⟨f, List.mem_filter.mpr ⟨hf, by simpa using hmf⟩, rfl⟩)
  · intro d hd hmd
    exact mem_triple_mid (List.mem_map.mpr
      ⟨d, List.mem_filter.mpr ⟨hd, by simpa using hmd⟩, rfl⟩)
  · intro m hm hr hms
    exact mem_triple_right (List.mem_map.mpr
      ⟨m, List.mem_filter.mpr ⟨hm, by simp [hr] ; simpa using hms⟩, rfl⟩)

/-- Closed witness for C6: a flavor missing two required files and one
required directory yields one failure listing all three problems. -/
theorem claim_C6_witness :
    ∃ errs,
      validateFlavorStructure
          ⟨"1.0.0", [], [], [],
            ⟨[["a.png"], ["b.json"]], [["assets"]]⟩⟩
          (fun q => if q = ["brands", "brand-a"] then some FsNode.dir
            else none) "brand-a" = .error (.structureInvalid errs) ∧
      ("Missing required file: " ++ renderPath ["a.png"]) ∈ errs ∧
      ("Missing required file: " ++ renderPath ["b.json"]) ∈ errs ∧
      ("Missing required directory: " ++ renderPath ["assets"]) ∈ errs := by
  obtain ⟨errs, h1, h2, h3, h4⟩ := claim_C6
    ⟨"1.0.0", [], [], [], ⟨[["a.png"], ["b.json"]], [["assets"]]⟩⟩
    (fun q => if q = ["brands", "brand-a"] then some FsNode.dir else none)
    "brand-a" (by decide)
    (Or.inl ⟨["a.png"], by decide, by decide⟩)
  exact ⟨errs, h1, h2 ["a.png"] (by decide) (by decide),
    h2 ["b.json"] (by decide) (by decide),
    h3 ["assets"] (by decide) (by decide)⟩

/-! ## Error shapes of the mutation passes -/

theorem applyMappings_error_shape (cfg : Configuration) (fp : Path) :
    ∀ (L : List Mapping) (fs : FS) (err : SwitchError) (fs' : FS),
      applyMappings cfg fp L fs = .error (err, fs') →
      (∃ src, err = .requiredSourceMissing src) ∨
        ∃ p, err = .notDirectory p := by
  intro L
  induction L with
  | nil => intro fs err fs' h; exact absurd h (by simp [applyMappings])
  | cons m rest ih =>
      intro fs err fs' h
      simp only [applyMappings] at h
      by_cases hsrc : pathExists fs (fp ++ m.source) = true
      · rw [if_pos hsrc] at h
        cases he : ensureDirs fs (cfg.projectRoot ++ m.target).dropLast with
        | error err2 =>
            rw [he] at h
            simp only [Except.error.injEq, Prod.mk.injEq] at h
            obtain ⟨p, hp⟩ := ensureDirs_error_shape he
            exact Or.inr ⟨p, by rw [← h.1]; exact hp⟩
        | ok fs1 =>
            rw [he] at h
            exact ih _ _ _ h
      · rw [if_neg hsrc] at h
        by_cases hreq : m.required = true
        · rw [if_pos hreq] at h
          simp only [Except.error.injEq, Prod.mk.injEq] at h
          exact Or.inl ⟨m.source, h.1.symm⟩
        · rw [if_neg hreq] at h
          exact ih _ _ _ h

theorem restoreStep_error_shape {cfg : Configuration} {fs : FS}
    {ent : Path × FileInfo} {err : SwitchError}
    (h : restoreStep cfg fs ent = .error err) :
    (∃ p, err = .isDirectory p) ∨ ∃ p, err = .noEntry p := by
  unfold restoreStep at h
  by_cases h1 : (ent.2.exists' && pathExists fs (BACKUP_ROOT ++ ent.1)) = true
  · rw [if_pos h1] at h
    exact absurd h (by simp)
  · rw [if_neg h1] at h
    by_cases h2 : (!ent.2.exists' &&
        pathExists fs (cfg.projectRoot ++ ent.1)) = true
    · rw [if_pos h2] at h
      by_cases h3 : ent.2.type = FileType.directory
      · rw [if_pos h3] at h
        exact absurd h (by simp)
      · rw [if_neg h3] at h
        rcases unlinkFile_error_shape h with h4 | h4
        · exact Or.inl ⟨_, h4⟩
        · exact Or.inr ⟨_, h4⟩
    · rw [if_neg h2] at h
      exact absurd h (by simp)

theorem restoreEntries_error_shape (cfg : Configuration) :
    ∀ (entries : List (Path × FileInfo)) (fs : FS) (err : SwitchError)
      (fs' : FS), restoreEntries cfg entries fs = .error (err, fs') →
      (∃ p, err = .isDirectory p) ∨ ∃ p, err = .noEntry p := by
  intro entries
  induction entries with
  | nil => intro fs err fs' h; exact absurd h (by simp [restoreEntries])
  | cons ent rest ih =>
      intro fs err fs' h
      simp only [restoreEntries] at h
      cases hs : restoreStep cfg fs ent with
      | error err2 =>
          rw [hs] at h
          simp only [Except.error.injEq, Prod.mk.injEq] at h
          rw [← h.1]
          exact restoreStep_error_shape hs
      | ok fs1 =>
          rw [hs] at h
          exact ih _ _ _ h

theorem restoreOriginalFiles_error_shape {cfg : Configuration} {st : State}
    {fs : FS} {err : SwitchError} {fs' : FS}
    (h : restoreOriginalFiles cfg st fs = .error (err, fs')) :
    (∃ p, err = .isDirectory p) ∨ ∃ p, err = .noEntry p := by
  unfold restoreOriginalFiles at h
  by_cases he : st.originalFiles.isEmpty = true
  · rw [if_pos he] at h
    exact absurd h (by simp)
  · rw [if_neg he] at h
    exact restoreEntries_error_shape cfg _ _ _ _ h

theorem backupStep_error_shape {cfg : Configuration}
    {bk : List (Path × FileInfo)} {fs : FS} {m : Mapping} {err : SwitchError}
    (h : backupStep cfg (bk, fs) m = .error err) :
    ∃ p, err = .notDirectory p := by
  simp only [backupStep] at h
  by_cases hex : pathExists fs (cfg.projectRoot ++ m.target) = true
  · rw [if_pos hex] at h
    cases he : ensureDirs fs (BACKUP_ROOT ++ m.target).dropLast with
    | error err2 =>
        rw [he] at h
        simp only [Except.error.injEq] at h
        obtain ⟨p, hp⟩ := ensureDirs_error_shape he
        exact ⟨p, by rw [← h]; exact hp⟩
    | ok fs1 =>
        rw [he] at h
        exact absurd h (by simp)
  · rw [if_neg hex] at h
    exact absurd h (by simp)

theorem backupMappings_error_shape (cfg : Configuration) :
    ∀ (L : List Mapping) (acc : List (Path × FileInfo) × FS)
      (err : SwitchError) (fs' : FS),
      backupMappings cfg L acc = .error (err, fs') →
      ∃ p, err = .notDirectory p := by
  intro L
  induction L with
  | nil => intro acc err fs' h; exact absurd h (by simp [backupMappings])
  | cons m rest ih =>
      intro acc err fs' h
      obtain ⟨bk, fs⟩ := acc
      simp only [backupMappings] at h
      cases hs : backupStep cfg (bk, fs) m with
      | error err2 =>
          rw [hs] at h
          simp only [Except.error.injEq, Prod.mk.injEq] at h
          obtain ⟨p, hp⟩ := backupStep_error_shape hs
          exact ⟨p, by rw [← h.1]; exact hp⟩
      | ok acc1 =>
          rw [hs] at h
          exact ih _ _ _ h

theorem backupOriginalFiles_error_shape {cfg : Configuration} {e : Engine}
    {w : World} {err : SwitchError} {fs' : FS}
    (h : backupOriginalFiles cfg e w = .error (err, fs')) :
    ∃ p, err = .notDirectory p := by
  unfold backupOriginalFiles at h
  cases hb : backupMappings cfg cfg.mappings ([], w.fs) with
  | error pr =>
      obtain ⟨err2, fs2⟩ := pr
      rw [hb] at h
      simp only [Except.error.injEq, Prod.mk.injEq] at h
      obtain ⟨p, hp⟩ := backupMappings_error_shape cfg _ _ _ _ hb
      exact ⟨p, by rw [← h.1]; exact hp⟩
  | ok pr =>
      obtain ⟨bk, fs2⟩ := pr
      rw [hb] at h
      exact absurd h (by simp)

/-! ## C7: failed validation leaves the world untouched -/

/-- C7: when `switchFlavor` fails with `NotConfigured`, `Inactive`, a
missing flavor directory, or `StructureInvalid`, the engine state and the
entire world (targets, backup root, ledger file, ignore file) are exactly
as before the call. -/
theorem claim_C7 (cfg : Configuration) (name : String) (e : Engine)
    (w : World) (err : SwitchError) (e' : Engine) (w' : World)
    (hrun : switchFlavor cfg name e w = .error (err, e', w'))
    (hkind : (∃ n, err = .notConfigured n) ∨ (∃ n, err = .inactive n) ∨
      (∃ p, err = .flavorDirMissing p) ∨ (∃ l, err = .structureInvalid l)) :
    e' = e ∧ w' = w := by
  unfold switchFlavor at hrun
  cases hlk : lookupFlavor cfg name with
  | none =>
      rw [hlk] at hrun
      simp only [Except.error.injEq, Prod.mk.injEq] at hrun
      exact ⟨hrun.2.1.symm, hrun.2.2.symm⟩
  | some fc =>
      rw [hlk] at hrun
      simp only at hrun
      by_cases hact : fc.active = true
      · rw [hact] at hrun
        simp only [Bool.not_true, Bool.false_eq_true, if_false] at hrun
        cases hval : validateFlavorStructure cfg w.fs name with
        | error err0 =>
            rw [hval] at hrun
            simp only [Except.error.injEq, Prod.mk.injEq] at hrun
            exact ⟨hrun.2.1.symm, hrun.2.2.symm⟩
        | ok u =>
            rw [hval] at hrun
            simp only at hrun
            cases hres : (if truthy e.currentFlavor then
                restoreOriginalFiles cfg e.state w.fs else .ok w.fs) with
            | error pr =>
                obtain ⟨err1, fs1⟩ := pr
                rw [hres] at hrun
                simp only [Except.error.injEq, Prod.mk.injEq] at hrun
                exfalso
                have hsh : (∃ p, err1 = .isDirectory p) ∨
                    ∃ p, err1 = .noEntry p := by
                  by_cases ht : truthy e.currentFlavor = true
                  · rw [if_pos ht] at hres
                    exact restoreOriginalFiles_error_shape hres
                  · rw [if_neg ht] at hres
                    exact absurd hres (by simp)
                rw [← hrun.1] at hkind
                rcases hsh with ⟨p, rfl⟩ | ⟨p, rfl⟩ <;>
                  rcases hkind with ⟨n, h⟩ | ⟨n, h⟩ | ⟨pth, h⟩ | ⟨l, h⟩ <;>
                    exact absurd h (by simp)
            | ok fsR =>
                rw [hres] at hrun
                simp only at hrun
                cases hbk : (if !truthy e.currentFlavor then
                    backupOriginalFiles cfg e { w with fs := fsR }
                  else .ok (e, { w with fs := fsR })) with
                | error pr =>
                    obtain ⟨err1, fs1⟩ := pr
                    rw [hbk] at hrun
                    simp only [Except.error.injEq, Prod.mk.injEq] at hrun
                    exfalso
                    have hsh : ∃ p, err1 = .notDirectory p := by
                      by_cases ht : (!truthy e.currentFlavor) = true
                      · rw [if_pos ht] at hbk
                        exact backupOriginalFiles_error_shape hbk
                      · rw [if_neg ht] at hbk
                        exact absurd hbk (by simp)
                    obtain ⟨p, rfl⟩ := hsh
                    rw [← hrun.1] at hkind
                    rcases hkind with ⟨n, h⟩ | ⟨n, h⟩ | ⟨pth, h⟩ | ⟨l, h⟩ <;>
                      exact absurd h (by simp)
                | ok pr =>
                    obtain ⟨e2, w2⟩ := pr
                    rw [hbk] at hrun
                    simp only at hrun
                    cases happ : applyFlavor cfg name w2.fs with
                    | ok fsOk =>
                        rw [happ] at hrun
                        simp at hrun
                    | error pr2 =>
                        obtain ⟨err1, fs1⟩ := pr2
                        rw [happ] at hrun
                        simp only [Except.error.injEq, Prod.mk.injEq] at hrun
                        exfalso
                        have hsh :=
                          applyMappings_error_shape cfg _ _ _ _ _ happ
                        rw [← hrun.1] at hkind
                        rcases hsh with ⟨s, rfl⟩ | ⟨p, rfl⟩ <;>
                          rcases hkind with
                            ⟨n, h⟩ | ⟨n, h⟩ | ⟨pth, h⟩ | ⟨l, h⟩ <;>
                            exact absurd h (by simp)
      · simp only [Bool.not_eq_true] at hact
        rw [hact] at hrun
        simp only [Bool.not_false, if_true, Except.error.injEq,
          Prod.mk.injEq] at hrun
        exact ⟨hrun.2.1.symm, hrun.2.2.symm⟩

/-- Closed witness for C7: switching to an unconfigured flavor errors and
leaves everything unchanged. -/
theorem claim_C7_witness :
    switchFlavor ⟨"1.0.0", [], [], [], ⟨[], []⟩⟩ "nope"
        ⟨⟨none, []⟩, none⟩ ⟨fun _ => none, none, none⟩ =
      .error (.notConfigured "nope", ⟨⟨none, []⟩, none⟩,
        ⟨fun _ => none, none, none⟩) ∧
    (⟨⟨none, []⟩, none⟩ : Engine) = ⟨⟨none, []⟩, none⟩ ∧
    (⟨fun _ => none, none, none⟩ : World) = ⟨fun _ => none, none, none⟩ :=
  ⟨rfl, claim_C7 ⟨"1.0.0", [], [], [], ⟨[], []⟩⟩ "nope"
    ⟨⟨none, []⟩, none⟩ ⟨fun _ => none, none, none⟩ _ _ _ rfl
    (Or.inl ⟨"nope", rfl⟩)⟩

/-! ## C5: the apply pass and partial application -/

theorem overlap_comm {a b : Path} : Overlap a b ↔ Overlap b a := Or.comm

theorem not_append_prefix_dropLast {tp r : Path} (h : tp ≠ []) :
    ¬ tp ++ r <+: tp.dropLast := by
  intro hpre
  have hlen := hpre.length_le
  rw [List.length_append, List.length_dropLast] at hlen
  have h0 : tp.length ≠ 0 := fun h0 => h (List.eq_nil_of_length_eq_zero h0)
  omega

theorem applyStep_untouched {fs : FS} {sp tp q : Path}
    (h1 : ¬ tp <+: q) (h2 : ¬ q <+: tp.dropLast) :
    copyTree (ensureFill fs tp.dropLast) sp tp q = fs q := by
  rw [copyTree_out h1, ensureFill_out h2]

/-- A path inside a region that does not overlap a mapping target is left
alone by that mapping's apply step. -/
theorem applyStep_untouched_of_region {fs : FS} {sp tp base q : Path}
    (hdisj : ¬ Overlap tp base) (hq : base <+: q) :
    copyTree (ensureFill fs tp.dropLast) sp tp q = fs q := by
  apply applyStep_untouched
  · exact notOverlap_not_prefix_left (overlap_comm.not.mp hdisj) hq
  · intro hqd
    exact hdisj (Or.inr (hq.trans (hqd.trans (List.dropLast_prefix tp))))

/-- The merge equation of one apply step on its own target region, when
the source region is not an ancestor chain of the target. -/
theorem applyStep_in {fs : FS} {sp tp : Path} (r : Path)
    (hspout : ¬ sp ++ r <+: tp.dropLast) (htpne : tp ≠ []) :
    copyTree (ensureFill fs tp.dropLast) sp tp (tp ++ r) =
      nodeOr (fs (sp ++ r)) (fs (tp ++ r)) := by
  rw [copyTree_in, ensureFill_out hspout,
    ensureFill_out (not_append_prefix_dropLast htpne)]

theorem applyMappings_untouched (cfg : Configuration) (fp : Path) :
    ∀ (L : List Mapping) (fs : FS) (q : Path),
      (∀ m ∈ L, ¬ Overlap q (cfg.projectRoot ++ m.target)) →
      exceptFS (applyMappings cfg fp L fs) q = fs q := by
  intro L
  induction L with
  | nil => intro fs q _; rfl
  | cons m rest ih =>
      intro fs q hq
      simp only [applyMappings]
      by_cases hsrc : pathExists fs (fp ++ m.source) = true
      · rw [if_pos hsrc]
        cases he : ensureDirs fs (cfg.projectRoot ++ m.target).dropLast with
        | error err => rfl
        | ok fs1 =>
            have hfs1 := ensureDirs_ok_inv he
            subst hfs1
            rw [ih _ q (fun m' hm' => hq m' (by simp [hm']))]
            have hno : ¬ Overlap q (cfg.projectRoot ++ m.target) :=
              hq m (by simp)
            apply applyStep_untouched
            · intro hpre
              exact hno (Or.inr hpre)
            · intro hpre
              exact hno (Or.inl (hpre.trans
                (List.dropLast_prefix (cfg.projectRoot ++ m.target))))
      · rw [if_neg hsrc]
        by_cases hreq : m.required = true
        · rw [if_pos hreq]
          rfl
        · rw [if_neg hreq]
          exact ih _ q (fun m' hm' => hq m' (by simp [hm']))

theorem applyMappings_fail_after (cfg : Configuration) (fp : Path) :
    ∀ (pre : List Mapping) (fs : FS) (m : Mapping) (post : List Mapping),
      (∀ m' ∈ pre, ¬ Overlap (cfg.projectRoot ++ m'.target) fp) →
      pre.Pairwise (fun a b => ¬ Overlap (cfg.projectRoot ++ a.target)
        (cfg.projectRoot ++ b.target)) →
      (∀ m' ∈ pre,
        (pathPrefixes ((cfg.projectRoot ++ m'.target).dropLast)).all
          (fun q => !isFileNode (fs q)) = true) →
      (∀ m' ∈ pre, m'.required = true →
        pathExists fs (fp ++ m'.source) = true) →
      pathExists fs (fp ++ m.source) = false → m.required = true →
      ∃ fsPre, applyMappings cfg fp pre fs = .ok fsPre ∧
        applyMappings cfg fp (pre ++ m :: post) fs =
          .error (.requiredSourceMissing m.source, fsPre) ∧
        ∀ m' ∈ pre, pathExists fs (fp ++ m'.source) = true →
          ∀ r, fsPre (cfg.projectRoot ++ m'.target ++ r) =
            nodeOr (fs (fp ++ m'.source ++ r))
              (fs (cfg.projectRoot ++ m'.target ++ r)) := by
  intro pre
  induction pre with
  | nil =>
      intro fs m post _ _ _ _ hm hreq
      refine ⟨fs, rfl, ?_, by simp⟩
      simp only [List.nil_append, applyMappings]
      rw [if_neg (by simp [hm]), if_pos hreq]
  | cons m0 pre' ih =>
      intro fs m post hflav hpair hanc hpre hm hreq
      have hflav0 : ¬ Overlap (cfg.projectRoot ++ m0.target) fp :=
        hflav m0 (by simp)
      have htp0ne : cfg.projectRoot ++ m0.target ≠ [] := by
        intro h0
        exact hflav0 (h0 ▸ Or.inl List.nil_prefix)
      have hpair0 := List.pairwise_cons.mp hpair
      by_cases hex : pathExists fs (fp ++ m0.source) = true
      · set tp0 := cfg.projectRoot ++ m0.target with htp0
        have hedirs : ensureDirs fs tp0.dropLast =
            .ok (ensureFill fs tp0.dropLast) :=
          ensureDirs_ok (hanc m0 (by simp))
        set fs1 := copyTree (ensureFill fs tp0.dropLast)
          (fp ++ m0.source) tp0 with hfs1
        have hstable : ∀ q, fp <+: q → fs1 q = fs q := fun q hq =>
          applyStep_untouched_of_region hflav0 hq
        have hstableE : ∀ p, fp <+: p → pathExists fs1 p = pathExists fs p :=
          fun p hp => by unfold pathExists; rw [hstable p hp]
        have hanc1 : ∀ m' ∈ pre',
            (pathPrefixes ((cfg.projectRoot ++ m'.target).dropLast)).all
              (fun q => !isFileNode (fs1 q)) = true := by
          intro m' hm'
          rw [List.all_eq_true]
          intro q hq
          obtain ⟨hqne, hqpre⟩ := mem_pathPrefixes.mp hq
          have horig := List.all_eq_true.mp (hanc m' (by simp [hm'])) q hq
          show (!isFileNode (fs1 q)) = true
          rw [hfs1, copyTree_out ?hout, isFileNode_ensureFill]
          · exact horig
          case hout =>
            intro hpre0
            exact hpair0.1 m' hm' (Or.inl (hpre0.trans
              (hqpre.trans (List.dropLast_prefix _))))
        obtain ⟨fsPre, h1, h2, h3⟩ := ih fs1 m post
          (fun m' hm' => hflav m' (by simp [hm']))
          hpair0.2
          hanc1
          (fun m' hm' hr => by
            rw [hstableE _ (List.prefix_append fp m'.source)]
            exact hpre m' (by simp [hm']) hr)
          (by rw [hstableE _ (List.prefix_append fp m.source)]; exact hm)
          hreq
        refine ⟨fsPre, ?_, ?_, ?_⟩
        · simp only [applyMappings]
          rw [if_pos hex, hedirs]
          exact h1
        · simp only [List.cons_append, applyMappings]
          rw [if_pos hex, hedirs]
          exact h2
        · intro m' hm' hsrcE r
          rcases List.mem_cons.mp hm' with rfl | hm'
          · have hu : fsPre (cfg.projectRoot ++ m'.target ++ r) =
                fs1 (cfg.projectRoot ++ m'.target ++ r) := by
              have := applyMappings_untouched cfg fp pre' fs1
                (cfg.projectRoot ++ m'.target ++ r)
                (fun mp hmp => notOverlap_of_region
                  (hpair0.1 mp hmp) (List.prefix_append _ r))
              rw [h1] at this
              exact this
            rw [hu, hfs1, htp0]
            apply applyStep_in
            · intro hpre0
              exact hflav0 (Or.inr ((List.prefix_append fp m'.source).trans
                ((List.prefix_append _ r).trans
                  (hpre0.trans (List.dropLast_prefix _)))))
            · exact htp0ne
          · rw [h3 m' hm' (by
              rw [hstableE _ (List.prefix_append fp m'.source)]
              exact hsrcE) r]
            rw [hstable _ ((List.prefix_append fp m'.source).trans
              (List.prefix_append _ r))]
            rw [hfs1, htp0, applyStep_untouched_of_region
              (hpair0.1 m' hm') (List.prefix_append _ r)]
      · have hreq0 : m0.required = false := by
          rcases hr0 : m0.required with _ | _
          · rfl
          · exact absurd (hpre m0 (by simp) hr0) hex
        obtain ⟨fsPre, h1, h2, h3⟩ := ih fs m post
          (fun m' hm' => hflav m' (by simp [hm']))
          hpair0.2
          (fun m' hm' => hanc m' (by simp [hm']))
          (fun m' hm' hr => hpre m' (by simp [hm']) hr)
          hm hreq
        refine ⟨fsPre, ?_, ?_, ?_⟩
        · simp only [applyMappings]
          rw [if_neg hex, if_neg (by simp [hreq0])]
          exact h1
        · simp only [List.cons_append, applyMappings]
          rw [if_neg hex, if_neg (by simp [hreq0])]
          exact h2
        · intro m' hm' hsrcE r
          rcases List.mem_cons.mp hm' with rfl | hm'
          · exact absurd hsrcE (by simp [hex])
          · exact h3 m' hm' hsrcE r

/-- C5: during the apply pass, mappings are processed in configuration
order; a mapping whose source exists under the flavor root is copied over
its target with `fs.copy`'s merge semantics (source entries overwrite
their counterparts, target entries without a source counterpart survive),
and when a required mapping's source is missing the pass fails with
`Required source file missing` while the copies already made for earlier
mappings stay on disk: the failure state is exactly the state after
applying the prefix before the failing mapping.  The ancestor hypothesis
makes the prefix's `fs.ensureDir` calls succeed, and the `NoClash`
hypothesis confines the statement to runs in which no `fs.copy` of the
prefix throws. -/
theorem claim_C5 (cfg : Configuration) (name : String) (fs : FS)
    (pre post : List Mapping) (m : Mapping)
    (hsplit : cfg.mappings = pre ++ m :: post)
    (hflav : ∀ m' ∈ cfg.mappings,
      ¬ Overlap (cfg.projectRoot ++ m'.target) (FLAVORS_ROOT ++ [name]))
    (hpair : cfg.mappings.Pairwise
      (fun a b => ¬ Overlap (cfg.projectRoot ++ a.target)
        (cfg.projectRoot ++ b.target)))
    (hanc : ∀ m' ∈ pre,
      (pathPrefixes ((cfg.projectRoot ++ m'.target).dropLast)).all
        (fun q => !isFileNode (fs q)) = true)
    (hclash : ∀ m' ∈ pre, NoClash fs (FLAVORS_ROOT ++ [name] ++ m'.source)
      (cfg.projectRoot ++ m'.target))
    (hpre : ∀ m' ∈ pre, m'.required = true →
      pathExists fs (FLAVORS_ROOT ++ [name] ++ m'.source) = true)
    (hm : pathExists fs (FLAVORS_ROOT ++ [name] ++ m.source) = false)
    (hreq : m.required = true) :
    ∃ fsPre, applyMappings cfg (FLAVORS_ROOT ++ [name]) pre fs = .ok fsPre ∧
      applyFlavor cfg name fs =
        .error (.requiredSourceMissing m.source, fsPre) ∧
      ∀ m' ∈ pre,
        pathExists fs (FLAVORS_ROOT ++ [name] ++ m'.source) = true →
        ∀ r, fsPre (cfg.projectRoot ++ m'.target ++ r) =
          nodeOr (fs (FLAVORS_ROOT ++ [name] ++ m'.source ++ r))
            (fs (cfg.projectRoot ++ m'.target ++ r)) := by
  have hpreSub : pre.Sublist cfg.mappings := by
    rw [hsplit]
    exact (List.sublist_append_left pre (m :: post))
  obtain ⟨fsPre, h1, h2, h3⟩ := applyMappings_fail_after cfg
    (FLAVORS_ROOT ++ [name]) pre fs m post
    (fun m' hm' => hflav m' (hpreSub.mem hm'))
    (hpair.sublist hpreSub)
    hanc hpre hm hreq
  refine ⟨fsPre, h1, ?_, h3⟩
  unfold applyFlavor
  rw [hsplit]
  exact h2

/-- Closed witness for C5: the optional first mapping is copied, then the
required second mapping's missing source aborts the pass, leaving the
first copy in place with the merge equation. -/
theorem claim_C5_witness :
    ∃ fsPre, applyMappings c5Cfg (FLAVORS_ROOT ++ ["brand-a"])
        [⟨["a.txt"], ["out", "a.txt"], FileType.file, false, none⟩] c5Fs =
        .ok fsPre ∧
      applyFlavor c5Cfg "brand-a" c5Fs =
        .error (.requiredSourceMissing ["logo.png"], fsPre) ∧
      ∀ m' ∈ [(⟨["a.txt"], ["out", "a.txt"], FileType.file, false, none⟩ :
          Mapping)],
        pathExists c5Fs (FLAVORS_ROOT ++ ["brand-a"] ++ m'.source) = true →
        ∀ r, fsPre (([] : Path) ++ m'.target ++ r) =
          nodeOr (c5Fs (FLAVORS_ROOT ++ ["brand-a"] ++ m'.source ++ r))
            (c5Fs (([] : Path) ++ m'.target ++ r)) :=
  claim_C5 c5Cfg "brand-a" c5Fs
    [⟨["a.txt"], ["out", "a.txt"], FileType.file, false, none⟩] []
    ⟨["logo.png"], ["out", "logo.png"], FileType.file, true, none⟩
    rfl (by decide) (by decide) (by decide)
    (by
      intro m' hm'
      rcases List.mem_singleton.mp hm' with rfl
      exact noClash_of_list (by decide))
    (by decide) (by decide) rfl

/-! ## Backup-pass lemmas (toward C1, C2, C3, C10) -/

theorem nodeOr_none_right (a : Option FsNode) : nodeOr a none = a := by
  cases a <;> rfl

theorem prefix_append_both {a t t' : Path} (h : t <+: t') :
    a ++ t <+: a ++ t' := (List.prefix_append_right_inj a).mpr h

theorem overlap_append_both {a t t' : Path} (h : Overlap t t') :
    Overlap (a ++ t) (a ++ t') := by
  rcases h with h | h
  · exact Or.inl (prefix_append_both h)
  · exact Or.inr (prefix_append_both h)

theorem notOverlap_strip {a t t' : Path}
    (h : ¬ Overlap (a ++ t) (a ++ t')) : ¬ Overlap t t' :=
  fun hc => h (overlap_append_both hc)

theorem notOverlap_extend {a b s : Path} (h : ¬ Overlap a b) :
    ¬ Overlap a (b ++ s) := by
  rintro (hq | hq)
  · exact h (prefixComparable hq (List.prefix_append b s))
  · exact h (Or.inr ((List.prefix_append b s).trans hq))

theorem flavors_not_overlap_backup (s : Path) :
    ¬ Overlap (FLAVORS_ROOT ++ s) BACKUP_ROOT := by
  rintro (h | h)
  · obtain ⟨hc, -⟩ := List.cons_prefix_cons.mp h
    exact absurd hc (by decide)
  · obtain ⟨hc, -⟩ := List.cons_prefix_cons.mp h
    exact absurd hc (by decide)

theorem setKey_fresh {l : List (Path × FileInfo)} {k : Path} (v : FileInfo)
    (h : ∀ v', (k, v') ∉ l) : setKey l k v = l ++ [(k, v)] := by
  induction l with
  | nil => rfl
  | cons p rest ih =>
      obtain ⟨k', v'⟩ := p
      simp only [setKey]
      rw [if_neg (fun hk => h v' (by simp [hk]))]
      rw [ih (fun u hu => h u (by simp [hu]))]
      simp

theorem backupStep_ok_present {cfg : Configuration}
    {bk acc1 : List (Path × FileInfo)} {fs fs1 : FS} {m : Mapping}
    (hex : pathExists fs (cfg.projectRoot ++ m.target) = true)
    (h : backupStep cfg (bk, fs) m = .ok (acc1, fs1)) :
    acc1 = setKey bk m.target ⟨getFileHash fs (cfg.projectRoot ++ m.target),
      true, m.type⟩ ∧
    fs1 = copyTree (ensureFill fs (BACKUP_ROOT ++ m.target).dropLast)
      (cfg.projectRoot ++ m.target) (BACKUP_ROOT ++ m.target) := by
  simp only [backupStep] at h
  rw [if_pos hex] at h
  cases he : ensureDirs fs (BACKUP_ROOT ++ m.target).dropLast with
  | error err =>
      rw [he] at h
      exact absurd h (by simp)
  | ok fsE =>
      rw [he] at h
      have hE := ensureDirs_ok_inv he
      simp only [Except.ok.injEq, Prod.mk.injEq] at h
      exact ⟨h.1.symm, by rw [← h.2, hE]⟩

theorem backupStep_ok_absent {cfg : Configuration}
    {bk acc1 : List (Path × FileInfo)} {fs fs1 : FS} {m : Mapping}
    (hex : pathExists fs (cfg.projectRoot ++ m.target) = false)
    (h : backupStep cfg (bk, fs) m = .ok (acc1, fs1)) :
    acc1 = setKey bk m.target ⟨none, false, m.type⟩ ∧ fs1 = fs := by
  simp only [backupStep] at h
  rw [if_neg (by simp [hex])] at h
  simp only [Except.ok.injEq, Prod.mk.injEq] at h
  exact ⟨h.1.symm, h.2.symm⟩

theorem backupStep_untouched {cfg : Configuration}
    {bk acc1 : List (Path × FileInfo)} {fs fs1 : FS} {m : Mapping} {q : Path}
    (h : backupStep cfg (bk, fs) m = .ok (acc1, fs1))
    (hq : ¬ Overlap q BACKUP_ROOT) : fs1 q = fs q := by
  by_cases hex : pathExists fs (cfg.projectRoot ++ m.target) = true
  · obtain ⟨-, hfs1⟩ := backupStep_ok_present hex h
    subst hfs1
    rw [copyTree_out ?h1, ensureFill_out ?h2]
    case h1 =>
      intro hpre
      exact hq (Or.inr ((List.prefix_append BACKUP_ROOT m.target).trans hpre))
    case h2 =>
      intro hpre
      exact hq (prefixComparable
        (hpre.trans (List.dropLast_prefix (BACKUP_ROOT ++ m.target)))
        (List.prefix_append BACKUP_ROOT m.target))
  · obtain ⟨-, hfs1⟩ := backupStep_ok_absent (by simpa using hex) h
    rw [hfs1]

theorem backupStep_bp_untouched {cfg : Configuration}
    {bk acc1 : List (Path × FileInfo)} {fs fs1 : FS} {m : Mapping} {t q : Path}
    (h : backupStep cfg (bk, fs) m = .ok (acc1, fs1))
    (hno : ¬ Overlap m.target t) (hq : BACKUP_ROOT ++ t <+: q) :
    fs1 q = fs q := by
  by_cases hex : pathExists fs (cfg.projectRoot ++ m.target) = true
  · obtain ⟨-, hfs1⟩ := backupStep_ok_present hex h
    subst hfs1
    rw [copyTree_out ?g1, ensureFill_out ?g2]
    case g1 =>
      intro hpre
      exact hno (overlap_append_left (prefixComparable hpre hq))
    case g2 =>
      intro hpre
      have h2 : BACKUP_ROOT ++ t <+: BACKUP_ROOT ++ m.target :=
        hq.trans (hpre.trans (List.dropLast_prefix _))
      exact hno (overlap_append_left (Or.inr h2))
  · obtain ⟨-, hfs1⟩ := backupStep_ok_absent (by simpa using hex) h
    rw [hfs1]

theorem backupMappings_untouched (cfg : Configuration) :
    ∀ (L : List Mapping) (bk : List (Path × FileInfo)) (fs : FS)
      (bkO : List (Path × FileInfo)) (fsO : FS) (q : Path),
      backupMappings cfg L (bk, fs) = .ok (bkO, fsO) →
      ¬ Overlap q BACKUP_ROOT → fsO q = fs q := by
  intro L
  induction L with
  | nil =>
      intro bk fs bkO fsO q h _
      simp only [backupMappings, Except.ok.injEq, Prod.mk.injEq] at h
      rw [← h.2]
  | cons m L' ih =>
      intro bk fs bkO fsO q h hq
      simp only [backupMappings] at h
      cases hs : backupStep cfg (bk, fs) m with
      | error err =>
          rw [hs] at h
          exact absurd h (by simp)
      | ok acc1 =>
          rw [hs] at h
          obtain ⟨bk1, fs1⟩ := acc1
          rw [ih bk1 fs1 bkO fsO q h hq]
          exact backupStep_untouched hs hq

theorem backupMappings_bp_untouched (cfg : Configuration) :
    ∀ (L : List Mapping) (bk : List (Path × FileInfo)) (fs : FS)
      (bkO : List (Path × FileInfo)) (fsO : FS) (t q : Path),
      backupMappings cfg L (bk, fs) = .ok (bkO, fsO) →
      (∀ m' ∈ L, ¬ Overlap m'.target t) →
      BACKUP_ROOT ++ t <+: q → fsO q = fs q := by
  intro L
  induction L with
  | nil =>
      intro bk fs bkO fsO t q h _ _
      simp only [backupMappings, Except.ok.injEq, Prod.mk.injEq] at h
      rw [← h.2]
  | cons m L' ih =>
      intro bk fs bkO fsO t q h hdisj hq
      simp only [backupMappings] at h
      cases hs : backupStep cfg (bk, fs) m with
      | error err =>
          rw [hs] at h
          exact absurd h (by simp)
      | ok acc1 =>
          rw [hs] at h
          obtain ⟨bk1, fs1⟩ := acc1
          rw [ih bk1 fs1 bkO fsO t q h
            (fun m' hm' => hdisj m' (by simp [hm'])) hq]
          exact backupStep_bp_untouched hs (hdisj m (by simp)) hq

theorem backupMappings_ok_spec (cfg : Configuration) (fs₀ : FS) :
    ∀ (L : List Mapping) (acc : List (Path × FileInfo)) (fs : FS)
      (bkO : List (Path × FileInfo)) (fsO : FS),
      (∀ m ∈ L, ¬ Overlap (cfg.projectRoot ++ m.target) BACKUP_ROOT) →
      L.Pairwise (fun a b => ¬ Overlap (cfg.projectRoot ++ a.target)
        (cfg.projectRoot ++ b.target)) →
      (∀ q, ¬ Overlap q BACKUP_ROOT → fs q = fs₀ q) →
      (∀ m ∈ L, ∀ v, (m.target, v) ∉ acc) →
      (∀ m ∈ L, ∀ q, (BACKUP_ROOT ++ m.target) <+: q → fs q = none) →
      backupMappings cfg L (acc, fs) = .ok (bkO, fsO) →
      bkO = acc ++ L.map (fun m => (m.target, backupRecord cfg fs₀ m)) ∧
      ∀ m ∈ L, pathExists fs₀ (cfg.projectRoot ++ m.target) = true →
        ∀ r, fsO (BACKUP_ROOT ++ m.target ++ r) =
          fs₀ (cfg.projectRoot ++ m.target ++ r) := by
  intro L
  induction L with
  | nil =>
      intro acc fs bkO fsO _ _ _ _ _ h
      simp only [backupMappings, Except.ok.injEq, Prod.mk.injEq] at h
      exact ⟨by rw [← h.1]; simp, by simp⟩
  | cons m L' ih =>
      intro acc fs bkO fsO hdisj hpair hagree hkeys hrem h
      have hd0 : ¬ Overlap (cfg.projectRoot ++ m.target) BACKUP_ROOT :=
        hdisj m (by simp)
      have hpc := List.pairwise_cons.mp hpair
      have hfs_tp : ∀ r, fs (cfg.projectRoot ++ m.target ++ r) =
          fs₀ (cfg.projectRoot ++ m.target ++ r) := fun r =>
        hagree _ (notOverlap_of_region hd0 (List.prefix_append _ r))
      have htp0 : fs (cfg.projectRoot ++ m.target) =
          fs₀ (cfg.projectRoot ++ m.target) := by
        have h00 := hfs_tp []
        simpa using h00
      have hexeq : pathExists fs (cfg.projectRoot ++ m.target) =
          pathExists fs₀ (cfg.projectRoot ++ m.target) := by
        unfold pathExists
        rw [htp0]
      have hhash : getFileHash fs (cfg.projectRoot ++ m.target) =
          getFileHash fs₀ (cfg.projectRoot ++ m.target) := by
        unfold getFileHash
        rw [htp0]
      simp only [backupMappings] at h
      cases hs : backupStep cfg (acc, fs) m with
      | error err =>
          rw [hs] at h
          exact absurd h (by simp)
      | ok acc1 =>
          rw [hs] at h
          obtain ⟨bk1, fs1⟩ := acc1
          have hfs1_agree : ∀ q, ¬ Overlap q BACKUP_ROOT → fs1 q = fs q :=
            fun q hq => backupStep_untouched hs hq
          have hacc1 : bk1 = acc ++ [(m.target, backupRecord cfg fs₀ m)] := by
            by_cases hex0 : pathExists fs (cfg.projectRoot ++ m.target) = true
            · obtain ⟨ha, -⟩ := backupStep_ok_present hex0 hs
              rw [ha, setKey_fresh _ (hkeys m (by simp))]
              unfold backupRecord
              rw [if_pos (hexeq ▸ hex0), hhash]
            · obtain ⟨ha, -⟩ := backupStep_ok_absent (by simpa using hex0) hs
              rw [ha, setKey_fresh _ (hkeys m (by simp))]
              unfold backupRecord
              rw [if_neg (by rw [← hexeq]; simpa using hex0)]
          have hfs1_bp : pathExists fs₀ (cfg.projectRoot ++ m.target) = true →
              ∀ r, fs1 (BACKUP_ROOT ++ m.target ++ r) =
                fs₀ (cfg.projectRoot ++ m.target ++ r) := by
            intro hex r
            obtain ⟨-, hb⟩ := backupStep_ok_present (hexeq.trans hex) hs
            rw [hb, copyTree_in, ensureFill_out ?hsrc,
              ensureFill_out (not_append_prefix_dropLast
                (show BACKUP_ROOT ++ m.target ≠ [] from List.cons_ne_nil _ _))]
            case hsrc =>
              intro hpre
              exact hd0 (prefixComparable
                ((List.prefix_append (cfg.projectRoot ++ m.target) r).trans
                  (hpre.trans (List.dropLast_prefix _)))
                (List.prefix_append BACKUP_ROOT m.target))
            rw [hrem m (by simp) _ (List.prefix_append _ r), nodeOr_none_right]
            exact hfs_tp r
          have hkeys1 : ∀ m' ∈ L', ∀ v, (m'.target, v) ∉ bk1 := by
            intro m' hm' v hmem
            rw [hacc1] at hmem
            rcases List.mem_append.mp hmem with hmem | hmem
            · exact hkeys m' (by simp [hm']) v hmem
            · have heq : m'.target = m.target := by
                simpa using congrArg Prod.fst (List.mem_singleton.mp hmem)
              exact hpc.1 m' hm' (heq ▸ Or.inl (List.prefix_refl _))
          have hrem1 : ∀ m' ∈ L', ∀ q,
              (BACKUP_ROOT ++ m'.target) <+: q → fs1 q = none := by
            intro m' hm' q hq
            have hstep := backupStep_bp_untouched hs
              (fun hc => hpc.1 m' hm' (overlap_append_both hc)) hq
            rw [hstep]
            exact hrem m' (by simp [hm']) q hq
          obtain ⟨ih1, ih2⟩ := ih bk1 fs1 bkO fsO
            (fun m' hm' => hdisj m' (by simp [hm']))
            hpc.2
            (fun q hq => (hfs1_agree q hq).trans (hagree q hq))
            hkeys1
            hrem1
            h
          constructor
          · rw [ih1, hacc1]
            simp
          · intro m'' hm'' hex r
            rcases List.mem_cons.mp hm'' with rfl | hm''
            · rw [backupMappings_bp_untouched cfg L' bk1 fs1 bkO fsO
                m''.target _ h
                (fun m' hm' => fun hc => hpc.1 m' hm'
                  (overlap_append_both (overlap_comm.mp hc)))
                (List.prefix_append _ r)]
              exact hfs1_bp hex r
            · exact ih2 m'' hm'' hex r

theorem backupOriginalFiles_ok_spec {cfg : Configuration} {e : Engine}
    {w : World} {eb : Engine} {wb : World}
    (hdisjB : ∀ m ∈ cfg.mappings,
      ¬ Overlap (cfg.projectRoot ++ m.target) BACKUP_ROOT)
    (hpair : cfg.mappings.Pairwise
      (fun a b => ¬ Overlap (cfg.projectRoot ++ a.target)
        (cfg.projectRoot ++ b.target)))
    (hbEmpty : ∀ q, BACKUP_ROOT <+: q → w.fs q = none)
    (h : backupOriginalFiles cfg e w = .ok (eb, wb)) :
    eb.state.originalFiles =
      cfg.mappings.map (fun m => (m.target, backupRecord cfg w.fs m)) ∧
    (∀ q, ¬ Overlap q BACKUP_ROOT → wb.fs q = w.fs q) ∧
    ∀ m ∈ cfg.mappings,
      pathExists w.fs (cfg.projectRoot ++ m.target) = true →
      ∀ r, wb.fs (BACKUP_ROOT ++ m.target ++ r) =
        w.fs (cfg.projectRoot ++ m.target ++ r) := by
  unfold backupOriginalFiles at h
  cases hb : backupMappings cfg cfg.mappings ([], w.fs) with
  | error pr =>
      obtain ⟨err2, fs2⟩ := pr
      rw [hb] at h
      exact absurd h (by simp)
  | ok pr =>
      obtain ⟨bk, fsB⟩ := pr
      rw [hb] at h
      simp only [Except.ok.injEq, Prod.mk.injEq] at h
      obtain ⟨hspec1, hspec2⟩ := backupMappings_ok_spec cfg w.fs cfg.mappings
        [] w.fs bk fsB hdisjB hpair (fun _ _ => rfl) (by simp)
        (fun m hm q hq => hbEmpty q
          ((List.prefix_append BACKUP_ROOT m.target).trans hq))
        hb
      refine ⟨?_, ?_, ?_⟩
      · rw [← h.1]
        simpa using hspec1
      · intro q hq
        rw [← h.2]
        show fsB q = w.fs q
        exact backupMappings_untouched cfg cfg.mappings [] w.fs bk fsB q hb hq
      · intro m hm hex r
        rw [← h.2]
        show fsB (BACKUP_ROOT ++ m.target ++ r) = _
        exact hspec2 m hm hex r

/-! ## Restore-pass lemmas -/

theorem pathExists_false_none {fs : FS} {p : Path}
    (h : pathExists fs p = false) : fs p = none := by
  unfold pathExists at h
  simpa using h

theorem fileType_not_dir {t : FileType} (h : ¬ t = FileType.directory) :
    t = FileType.file := by
  cases t with
  | file => rfl
  | directory => exact absurd rfl h

theorem restoreStep_ok_untouched {cfg : Configuration} {fs fs1 : FS}
    {ent : Path × FileInfo} {q : Path}
    (h : restoreStep cfg fs ent = .ok fs1)
    (hq : ¬ (cfg.projectRoot ++ ent.1) <+: q) : fs1 q = fs q := by
  unfold restoreStep at h
  by_cases h1 : (ent.2.exists' && pathExists fs (BACKUP_ROOT ++ ent.1)) = true
  · rw [if_pos h1] at h
    simp only [Except.ok.injEq] at h
    rw [← h]
    exact copyTree_out hq
  · rw [if_neg h1] at h
    by_cases h2 : (!ent.2.exists' &&
        pathExists fs (cfg.projectRoot ++ ent.1)) = true
    · rw [if_pos h2] at h
      by_cases h3 : ent.2.type = FileType.directory
      · rw [if_pos h3] at h
        simp only [Except.ok.injEq] at h
        rw [← h]
        exact removeTree_out hq
      · rw [if_neg h3] at h
        rw [unlinkFile_ok_inv h]
        exact dropEntry_out (fun heq => hq (heq ▸ List.prefix_refl _))
    · rw [if_neg h2] at h
      simp only [Except.ok.injEq] at h
      rw [← h]

theorem restoreEntries_ok_untouched (cfg : Configuration) :
    ∀ (entries : List (Path × FileInfo)) (fs fsO : FS) (q : Path),
      restoreEntries cfg entries fs = .ok fsO →
      (∀ ent ∈ entries, ¬ (cfg.projectRoot ++ ent.1) <+: q) →
      fsO q = fs q := by
  intro entries
  induction entries with
  | nil =>
      intro fs fsO q h _
      simp only [restoreEntries, Except.ok.injEq] at h
      rw [← h]
  | cons ent rest ih =>
      intro fs fsO q h hq
      simp only [restoreEntries] at h
      cases hs : restoreStep cfg fs ent with
      | error err =>
          rw [hs] at h
          exact absurd h (by simp)
      | ok fs1 =>
          rw [hs] at h
          rw [ih fs1 fsO q h (fun e he => hq e (by simp [he]))]
          exact restoreStep_ok_untouched hs (hq ent (by simp))

theorem restoreFold_spec (cfg : Configuration) (fs₀ : FS) :
    ∀ (L : List Mapping) (fs : FS),
      (∀ m ∈ L, ¬ Overlap (cfg.projectRoot ++ m.target) BACKUP_ROOT) →
      L.Pairwise (fun a b => ¬ Overlap (cfg.projectRoot ++ a.target)
        (cfg.projectRoot ++ b.target)) →
      (∀ m ∈ L, pathExists fs₀ (cfg.projectRoot ++ m.target) = true →
        ∀ r, fs (BACKUP_ROOT ++ m.target ++ r) =
          fs₀ (cfg.projectRoot ++ m.target ++ r)) →
      (∀ m ∈ L, pathExists fs₀ (cfg.projectRoot ++ m.target) = false →
        m.type = FileType.directory →
        pathExists fs (cfg.projectRoot ++ m.target) = false →
        ∀ r, fs (cfg.projectRoot ++ m.target ++ r) = none) →
      (∀ m ∈ L, pathExists fs₀ (cfg.projectRoot ++ m.target) = false →
        m.type = FileType.file →
        fs (cfg.projectRoot ++ m.target) ≠ some FsNode.dir) →
      ∃ fsR, restoreEntries cfg
          (L.map (fun m => (m.target, backupRecord cfg fs₀ m))) fs =
          .ok fsR ∧
        ∀ m ∈ L,
          (pathExists fs₀ (cfg.projectRoot ++ m.target) = true →
            ∀ r, fsR (cfg.projectRoot ++ m.target ++ r) =
              nodeOr (fs₀ (cfg.projectRoot ++ m.target ++ r))
                (fs (cfg.projectRoot ++ m.target ++ r))) ∧
          (pathExists fs₀ (cfg.projectRoot ++ m.target) = false →
            fsR (cfg.projectRoot ++ m.target) = none) ∧
          (pathExists fs₀ (cfg.projectRoot ++ m.target) = false →
            m.type = FileType.directory →
            ∀ r, fsR (cfg.projectRoot ++ m.target ++ r) = none) ∧
          (pathExists fs₀ (cfg.projectRoot ++ m.target) = false →
            m.type = FileType.file →
            ∀ r, r ≠ [] → fsR (cfg.projectRoot ++ m.target ++ r) =
              fs (cfg.projectRoot ++ m.target ++ r)) := by
  intro L
  induction L with
  | nil =>
      intro fs _ _ _ _ _
      exact ⟨fs, rfl, fun m hm => absurd hm (List.not_mem_nil m)⟩
  | cons m0 L' ih =>
      intro fs hdisjB hpair hbp habs hfile
      have hd0 : ¬ Overlap (cfg.projectRoot ++ m0.target) BACKUP_ROOT :=
        hdisjB m0 (by simp)
      have hpc := List.pairwise_cons.mp hpair
      obtain ⟨fs1, hstep, hreg_ex, habs_node, habs_dir, hfile_rest, hout⟩ :
          ∃ fs1, restoreStep cfg fs (m0.target, backupRecord cfg fs₀ m0) =
            .ok fs1 ∧
          (pathExists fs₀ (cfg.projectRoot ++ m0.target) = true →
            ∀ r, fs1 (cfg.projectRoot ++ m0.target ++ r) =
              nodeOr (fs₀ (cfg.projectRoot ++ m0.target ++ r))
                (fs (cfg.projectRoot ++ m0.target ++ r))) ∧
          (pathExists fs₀ (cfg.projectRoot ++ m0.target) = false →
            fs1 (cfg.projectRoot ++ m0.target) = none) ∧
          (pathExists fs₀ (cfg.projectRoot ++ m0.target) = false →
            m0.type = FileType.directory →
            ∀ r, fs1 (cfg.projectRoot ++ m0.target ++ r) = none) ∧
          (pathExists fs₀ (cfg.projectRoot ++ m0.target) = false →
            m0.type = FileType.file →
            ∀ r, r ≠ [] → fs1 (cfg.projectRoot ++ m0.target ++ r) =
              fs (cfg.projectRoot ++ m0.target ++ r)) ∧
          ∀ q, ¬ (cfg.projectRoot ++ m0.target) <+: q → fs1 q = fs q := by
        by_cases hex : pathExists fs₀ (cfg.projectRoot ++ m0.target) = true
        · have hrec : (backupRecord cfg fs₀ m0).exists' = true := by
            unfold backupRecord
            rw [if_pos hex]
          have hbpv := hbp m0 (by simp) hex
          have hbpex : pathExists fs (BACKUP_ROOT ++ m0.target) = true := by
            have h00 := hbpv []
            simp only [List.append_nil] at h00
            unfold pathExists
            rw [h00]
            exact hex
          refine ⟨copyTree fs (BACKUP_ROOT ++ m0.target)
            (cfg.projectRoot ++ m0.target), ?_, ?_, ?_, ?_, ?_, ?_⟩
          · unfold restoreStep
            rw [if_pos (by simp [hrec, hbpex])]
          · intro _ r
            rw [copyTree_in, hbpv r]
          · intro hex'
            exact absurd hex (by simp [hex'])
          · intro hex'
            exact absurd hex (by simp [hex'])
          · intro hex'
            exact absurd hex (by simp [hex'])
          · intro q hq
            exact copyTree_out hq
        · have hexF : pathExists fs₀ (cfg.projectRoot ++ m0.target) = false :=
            by simpa using hex
          have hrec : (backupRecord cfg fs₀ m0).exists' = false := by
            unfold backupRecord
            rw [if_neg (by simp [hexF])]
          have hrty : (backupRecord cfg fs₀ m0).type = m0.type := by
            unfold backupRecord
            rw [if_neg (by simp [hexF])]
          by_cases hfsx : pathExists fs (cfg.projectRoot ++ m0.target) = true
          · by_cases hdir : m0.type = FileType.directory
            · refine ⟨removeTree fs (cfg.projectRoot ++ m0.target),
                ?_, ?_, ?_, ?_, ?_, ?_⟩
              · unfold restoreStep
                rw [if_neg (by simp [hrec]), if_pos (by simp [hrec, hfsx]),
                  if_pos (by rw [hrty]; exact hdir)]
              · intro hex'
                exact absurd hex' (by simp [hexF])
              · intro _
                exact removeTree_in (List.prefix_refl _)
              · intro _ _ r
                exact removeTree_in (List.prefix_append _ r)
              · intro _ hfil
                rw [hfil] at hdir
                exact absurd hdir (by simp)
              · intro q hq
                exact removeTree_out hq
            · have hfil := fileType_not_dir hdir
              have hnode : ∃ b, fs (cfg.projectRoot ++ m0.target) =
                  some (FsNode.file b) := by
                have hnd := hfile m0 (by simp) hexF hfil
                have hsome : (fs (cfg.projectRoot ++ m0.target)).isSome =
                    true := hfsx
                rcases hv : fs (cfg.projectRoot ++ m0.target) with _ | n
                · rw [hv] at hsome
                  simp at hsome
                · cases n with
                  | file b => exact ⟨b, rfl⟩
                  | dir => exact absurd hv hnd
              obtain ⟨b, hb⟩ := hnode
              refine ⟨dropEntry fs (cfg.projectRoot ++ m0.target),
                ?_, ?_, ?_, ?_, ?_, ?_⟩
              · unfold restoreStep
                rw [if_neg (by simp [hrec]), if_pos (by simp [hrec, hfsx]),
                  if_neg (by rw [hrty]; rw [hfil]; simp)]
                exact unlinkFile_ok_file hb
              · intro hex'
                exact absurd hex' (by simp [hexF])
              · intro _
                exact dropEntry_self fs _
              · intro _ hdir'
                rw [hdir'] at hfil
                exact absurd hfil (by simp)
              · intro _ _ r hr
                exact dropEntry_out
                  (fun heq => hr (append_eq_self_nil heq))
              · intro q hq
                exact dropEntry_out
                  (fun heq => hq (heq ▸ List.prefix_refl _))
          · have hfsxF : pathExists fs (cfg.projectRoot ++ m0.target) =
                false := by simpa using hfsx
            refine ⟨fs, ?_, ?_, ?_, ?_, ?_, ?_⟩
            · unfold restoreStep
              rw [if_neg (by simp [hrec]), if_neg (by simp [hfsxF])]
            · intro hex'
              exact absurd hex' (by simp [hexF])
            · intro _
              exact pathExists_false_none hfsxF
            · intro _ hdir r
              exact habs m0 (by simp) hexF hdir hfsxF r
            · intro _ _ r _
              rfl
            · intro q _
              rfl
      have hnotT : ∀ m' ∈ L', ∀ r : Path,
          ¬ (cfg.projectRoot ++ m0.target) <+:
            (cfg.projectRoot ++ m'.target ++ r) := by
        intro m' hm' r hpre
        exact hpc.1 m' hm'
          (prefixComparable hpre (List.prefix_append _ r))
      have hnotB : ∀ q, BACKUP_ROOT <+: q →
          ¬ (cfg.projectRoot ++ m0.target) <+: q := by
        intro q hq hpre
        exact hd0 (prefixComparable hpre hq)
      have hout_node : ∀ m' ∈ L',
          fs1 (cfg.projectRoot ++ m'.target) =
            fs (cfg.projectRoot ++ m'.target) := by
        intro m' hm'
        apply hout
        have h00 := hnotT m' hm' []
        simpa using h00
      obtain ⟨fsR, hfold, hfacts⟩ := ih fs1
        (fun m' hm' => hdisjB m' (by simp [hm']))
        hpc.2
        (fun m' hm' hex r => by
          rw [hout _ (hnotB _ ((List.prefix_append BACKUP_ROOT
            m'.target).trans (List.prefix_append _ r)))]
          exact hbp m' (by simp [hm']) hex r)
        (fun m' hm' hex hdir hfsx r => by
          rw [hout _ (hnotT m' hm' r)]
          apply habs m' (by simp [hm']) hex hdir
          unfold pathExists at hfsx ⊢
          rw [← hout_node m' hm']
          exact hfsx)
        (fun m' hm' hex hfil => by
          rw [hout_node m' hm']
          exact hfile m' (by simp [hm']) hex hfil)
      refine ⟨fsR, ?_, ?_⟩
      · rw [List.map_cons]
        simp only [restoreEntries]
        rw [hstep]
        exact hfold
      · intro m hm
        rcases List.mem_cons.mp hm with rfl | hm
        · have hF_eq : ∀ r, fsR (cfg.projectRoot ++ m.target ++ r) =
              fs1 (cfg.projectRoot ++ m.target ++ r) := by
            intro r
            apply restoreEntries_ok_untouched cfg _ fs1 fsR _ hfold
            intro ent hent
            obtain ⟨m', hm', rfl⟩ := List.mem_map.mp hent
            intro hpre
            exact hpc.1 m' hm' (overlap_comm.mp
              (prefixComparable hpre (List.prefix_append _ r)))
          refine ⟨?_, ?_, ?_, ?_⟩
          · intro hex r
            rw [hF_eq r]
            exact hreg_ex hex r
          · intro hex
            have h00 := hF_eq []
            simp only [List.append_nil] at h00
            rw [h00]
            exact habs_node hex
          · intro hex hdir r
            rw [hF_eq r]
            exact habs_dir hex hdir r
          · intro hex hfil r hr
            rw [hF_eq r]
            exact hfile_rest hex hfil r hr
        · obtain hres := hfacts m hm
          refine ⟨?_, ?_, ?_, ?_⟩
          · intro hex r
            rw [hres.1 hex r, hout _ (hnotT m hm r)]
          · intro hex
            exact hres.2.1 hex
          · intro hex hdir r
            exact hres.2.2.1 hex hdir r
          · intro hex hfil r hr
            rw [hres.2.2.2 hex hfil r hr, hout _ (hnotT m hm r)]

theorem restoreOriginalFiles_eq (cfg : Configuration) (st : State)
    (fs : FS) : restoreOriginalFiles cfg st fs =
      restoreEntries cfg st.originalFiles fs := by
  unfold restoreOriginalFiles
  by_cases h : st.originalFiles.isEmpty = true
  · rw [if_pos h, List.isEmpty_iff.mp h]
    rfl
  · rw [if_neg h]

/-! ## Apply-pass region characterization and engine extraction -/

theorem applyFlavor_backup_untouched (cfg : Configuration) (name : String)
    {fs fs' : FS}
    (hdisjB : ∀ m ∈ cfg.mappings,
      ¬ Overlap (cfg.projectRoot ++ m.target) BACKUP_ROOT)
    (h : applyFlavor cfg name fs = .ok fs') :
    ∀ q, BACKUP_ROOT <+: q → fs' q = fs q := by
  intro q hq
  have huntouched := applyMappings_untouched cfg (FLAVORS_ROOT ++ [name])
    cfg.mappings fs q
    (fun m' hm' => notOverlap_of_region
      (overlap_comm.not.mp (hdisjB m' hm')) hq)
  unfold applyFlavor at h
  rw [h] at huntouched
  simpa only [exceptFS] using huntouched

theorem applyFlavor_flavors_untouched (cfg : Configuration) (name : String)
    {fs fs' : FS}
    (hdisjF : ∀ m ∈ cfg.mappings,
      ¬ Overlap (cfg.projectRoot ++ m.target) FLAVORS_ROOT)
    (h : applyFlavor cfg name fs = .ok fs') :
    ∀ q, FLAVORS_ROOT <+: q → fs' q = fs q := by
  intro q hq
  have huntouched := applyMappings_untouched cfg (FLAVORS_ROOT ++ [name])
    cfg.mappings fs q
    (fun m' hm' => notOverlap_of_region
      (overlap_comm.not.mp (hdisjF m' hm')) hq)
  unfold applyFlavor at h
  rw [h] at huntouched
  simpa only [exceptFS] using huntouched

theorem applyMappings_ok_region (cfg : Configuration) (fp : Path) :
    ∀ (L : List Mapping) (fs fs' : FS),
      L.Pairwise (fun a b => ¬ Overlap (cfg.projectRoot ++ a.target)
        (cfg.projectRoot ++ b.target)) →
      (∀ m ∈ L, ¬ Overlap (cfg.projectRoot ++ m.target) fp) →
      applyMappings cfg fp L fs = .ok fs' →
      ∀ m ∈ L,
        (pathExists fs (fp ++ m.source) = true →
          ∀ r, fs' (cfg.projectRoot ++ m.target ++ r) =
            nodeOr (fs (fp ++ m.source ++ r))
              (fs (cfg.projectRoot ++ m.target ++ r))) ∧
        (pathExists fs (fp ++ m.source) = false →
          ∀ r, fs' (cfg.projectRoot ++ m.target ++ r) =
            fs (cfg.projectRoot ++ m.target ++ r)) := by
  intro L
  induction L with
  | nil => intro fs fs' _ _ _ m hm; exact absurd hm (List.not_mem_nil m)
  | cons m0 rest ih =>
      intro fs fs' hpair hflav h m hm
      have hpc := List.pairwise_cons.mp hpair
      have hflav0 : ¬ Overlap (cfg.projectRoot ++ m0.target) fp :=
        hflav m0 (by simp)
      have htp0ne : cfg.projectRoot ++ m0.target ≠ [] := by
        intro h0
        exact hflav0 (h0 ▸ Or.inl List.nil_prefix)
      simp only [applyMappings] at h
      by_cases hsrc : pathExists fs (fp ++ m0.source) = true
      · rw [if_pos hsrc] at h
        cases he : ensureDirs fs (cfg.projectRoot ++ m0.target).dropLast with
        | error err =>
            rw [he] at h
            exact absurd h (by simp)
        | ok fs1 =>
            rw [he] at h
            have hfs1 := ensureDirs_ok_inv he
            subst hfs1
            set fsS := copyTree (ensureFill fs
              (cfg.projectRoot ++ m0.target).dropLast)
              (fp ++ m0.source) (cfg.projectRoot ++ m0.target) with hfsS
            have hA : applyMappings cfg fp rest fsS = .ok fs' := h
            have hstable : ∀ q, fp <+: q → fsS q = fs q := fun q hq =>
              applyStep_untouched_of_region hflav0 hq
            have hreg : ∀ r, fsS (cfg.projectRoot ++ m0.target ++ r) =
                nodeOr (fs (fp ++ m0.source ++ r))
                  (fs (cfg.projectRoot ++ m0.target ++ r)) := by
              intro r
              rw [hfsS]
              apply applyStep_in
              · intro hpre
                exact hflav0 (Or.inr ((List.prefix_append fp m0.source).trans
                  ((List.prefix_append _ r).trans
                    (hpre.trans (List.dropLast_prefix _)))))
              · exact htp0ne
            rcases List.mem_cons.mp hm with rfl | hm1
            · have hu : ∀ r, fs' (cfg.projectRoot ++ m.target ++ r) =
                  fsS (cfg.projectRoot ++ m.target ++ r) := by
                intro r
                have h2 := applyMappings_untouched cfg fp rest fsS
                  (cfg.projectRoot ++ m.target ++ r)
                  (fun mp hmp => notOverlap_of_region
                    (hpc.1 mp hmp) (List.prefix_append _ r))
                rw [hA] at h2
                exact h2
              constructor
              · intro _ r
                rw [hu r, hreg r]
              · intro hsrcF
                exact absurd hsrc (by simp [hsrcF])
            · have hres := ih fsS fs' hpc.2
                (fun m' hm' => hflav m' (by simp [hm'])) hA m hm1
              have hsrc_eq : pathExists fsS (fp ++ m.source) =
                  pathExists fs (fp ++ m.source) := by
                unfold pathExists
                rw [hstable _ (List.prefix_append fp m.source)]
              have htr : ∀ r, fsS (cfg.projectRoot ++ m.target ++ r) =
                  fs (cfg.projectRoot ++ m.target ++ r) := by
                intro r
                rw [hfsS]
                exact applyStep_untouched_of_region (hpc.1 m hm1)
                  (List.prefix_append _ r)
              have hsrcR : ∀ r, fsS (fp ++ m.source ++ r) =
                  fs (fp ++ m.source ++ r) := by
                intro r
                exact hstable _ ((List.prefix_append fp m.source).trans
                  (List.prefix_append _ r))
              constructor
              · intro hsex r
                rw [← hsrcR r, ← htr r]
                exact hres.1 (by rw [hsrc_eq]; exact hsex) r
              · intro hsex r
                rw [← htr r]
                exact hres.2 (by rw [hsrc_eq]; exact hsex) r
      · rw [if_neg hsrc] at h
        by_cases hreq : m0.required = true
        · rw [if_pos hreq] at h
          exact absurd h (by simp)
        · rw [if_neg hreq] at h
          rcases List.mem_cons.mp hm with rfl | hm1
          · constructor
            · intro hsex
              exact absurd hsex hsrc
            · intro _ r
              have h2 := applyMappings_untouched cfg fp rest fs
                (cfg.projectRoot ++ m.target ++ r)
                (fun m' hm' => notOverlap_of_region
                  (hpc.1 m' hm') (List.prefix_append _ r))
              rw [h] at h2
              exact h2
          · exact ih fs fs' hpc.2
              (fun m' hm' => hflav m' (by simp [hm'])) h m hm1

theorem switchFlavor_ok_none (cfg : Configuration) (name : String)
    (e : Engine) (w : World) (e1 : Engine) (w1 : World)
    (hnone : truthy e.currentFlavor = false)
    (h : switchFlavor cfg name e w = .ok (e1, w1)) :
    ∃ eb wb fs', backupOriginalFiles cfg e w = .ok (eb, wb) ∧
      applyFlavor cfg name wb.fs = .ok fs' ∧
      e1 = ⟨⟨some name, eb.state.originalFiles⟩, some name⟩ ∧
      w1.fs = fs' ∧ w1.ledgerFile = some (some e1.state) := by
  unfold switchFlavor at h
  cases hlk : lookupFlavor cfg name with
  | none => rw [hlk] at h; simp at h
  | some fc =>
      rw [hlk] at h
      simp only at h
      by_cases hact : fc.active = true
      · rw [hact] at h
        simp only [Bool.not_true, Bool.false_eq_true, if_false] at h
        cases hval : validateFlavorStructure cfg w.fs name with
        | error err0 => rw [hval] at h; simp at h
        | ok u =>
            rw [hval] at h
            simp only [hnone, Bool.false_eq_true, if_false, Bool.not_false,
              if_true] at h
            cases hbk : backupOriginalFiles cfg e { w with fs := w.fs } with
            | error pr =>
                obtain ⟨errB, fsB⟩ := pr
                rw [hbk] at h
                simp at h
            | ok pr =>
                obtain ⟨eb, wb⟩ := pr
                rw [hbk] at h
                simp only at h
                cases happ : applyFlavor cfg name wb.fs with
                | error pr2 =>
                    obtain ⟨errA, fsA⟩ := pr2
                    rw [happ] at h
                    simp at h
                | ok fs' =>
                    rw [happ] at h
                    simp only [updateGitignore, saveState, Except.ok.injEq,
                      Prod.mk.injEq] at h
                    exact ⟨eb, wb, fs', rfl, happ, by rw [← h.1],
                      by rw [← h.2], by rw [← h.2, ← h.1]⟩
      · simp only [Bool.not_eq_true] at hact
        rw [hact] at h
        simp at h

theorem switchFlavor_ok_active (cfg : Configuration) (name : String)
    (e : Engine) (w : World) (e1 : Engine) (w1 : World)
    (hsome : truthy e.currentFlavor = true)
    (h : switchFlavor cfg name e w = .ok (e1, w1)) :
    ∃ fsR fs', restoreOriginalFiles cfg e.state w.fs = .ok fsR ∧
      applyFlavor cfg name fsR = .ok fs' ∧
      e1 = ⟨⟨some name, e.state.originalFiles⟩, some name⟩ ∧
      w1.fs = fs' ∧ w1.ledgerFile = some (some e1.state) := by
  unfold switchFlavor at h
  cases hlk : lookupFlavor cfg name with
  | none => rw [hlk] at h; simp at h
  | some fc =>
      rw [hlk] at h
      simp only at h
      by_cases hact : fc.active = true
      · rw [hact] at h
        simp only [Bool.not_true, Bool.false_eq_true, if_false] at h
        cases hval : validateFlavorStructure cfg w.fs name with
        | error err0 => rw [hval] at h; simp at h
        | ok u =>
            rw [hval] at h
            simp only [hsome, if_true, Bool.not_true, Bool.false_eq_true,
              if_false] at h
            cases hres : restoreOriginalFiles cfg e.state w.fs with
            | error pr =>
                obtain ⟨errR, fsE⟩ := pr
                rw [hres] at h
                simp at h
            | ok fsR =>
                rw [hres] at h
                simp only at h
                cases happ : applyFlavor cfg name fsR with
                | error pr2 =>
                    obtain ⟨errA, fsA⟩ := pr2
                    rw [happ] at h
                    simp at h
                | ok fs' =>
                    rw [happ] at h
                    simp only [updateGitignore, saveState, Except.ok.injEq,
                      Prod.mk.injEq] at h
                    exact ⟨fsR, fs', rfl, happ, by rw [← h.1],
                      by rw [← h.2], by rw [← h.2, ← h.1]⟩
      · simp only [Bool.not_eq_true] at hact
        rw [hact] at h
        simp at h

theorem resetFlavor_ok_struct (cfg : Configuration) (e : Engine) (w : World)
    {fs1 : FS} (hsome : truthy e.currentFlavor = true)
    (hres : restoreOriginalFiles cfg e.state w.fs = .ok fs1) :
    resetFlavor cfg e w = .ok (⟨⟨none, []⟩, none⟩,
      { fs := if pathExists fs1 BACKUP_ROOT then removeTree fs1 BACKUP_ROOT
          else fs1,
        ledgerFile := some (some ⟨none, []⟩),
        gitignore := some (gitignoreOutput cfg none w.gitignore) }) := by
  unfold resetFlavor
  rw [hsome]
  simp only [Bool.not_true, Bool.false_eq_true, if_false]
  rw [hres]
  simp [saveState, updateGitignore]

theorem removeBackup_untouched {fs : FS} {tp q : Path}
    (hd : ¬ Overlap tp BACKUP_ROOT) (hq : tp <+: q) :
    (if pathExists fs BACKUP_ROOT then removeTree fs BACKUP_ROOT else fs) q
      = fs q := by
  by_cases h : pathExists fs BACKUP_ROOT = true
  · rw [if_pos h]
    exact removeTree_out (notOverlap_not_prefix_left hd hq)
  · rw [if_neg h]

/-! ## The filesystem after a switch from the no-flavor state -/

theorem flavor_src_not_overlap_backup (name : String) (s : Path) :
    ¬ Overlap (FLAVORS_ROOT ++ [name] ++ s) BACKUP_ROOT := by
  have h := flavors_not_overlap_backup ([name] ++ s)
  simpa [List.append_assoc] using h

theorem flavor_path_not_overlap_backup (name : String) (s r : Path) :
    ¬ Overlap (FLAVORS_ROOT ++ [name] ++ s ++ r) BACKUP_ROOT := by
  have h := flavors_not_overlap_backup ([name] ++ s ++ r)
  simpa [List.append_assoc] using h

theorem compatNode_dir_left {b : List Nat} {x : Option FsNode}
    (h : compatNode x (some (FsNode.file b)) = true) :
    x ≠ some FsNode.dir := by
  intro hx
  rw [hx] at h
  simp [compatNode] at h

/-- After a successful `switchFlavor` from the no-active-flavor state:
the new engine state, the exact backup mirror of every pre-existing
target, the merge equation on every target region, the stability of the
flavors root, and the restore-pass preconditions (absent directory
targets hold exactly the flavor content, absent file targets do not hold
a directory). -/
theorem switchNone_spec (cfg : Configuration) (name : String) (e : Engine)
    (w : World) (e1 : Engine) (w1 : World)
    (hdisj : TargetsDisjoint cfg)
    (hwf : TreeLike w.fs)
    (hnone : truthy e.currentFlavor = false)
    (hbEmpty : ∀ q, BACKUP_ROOT <+: q → w.fs q = none)
    (htype : ∀ m ∈ cfg.mappings, m.type = FileType.file →
      pathExists w.fs (cfg.projectRoot ++ m.target) = false →
      w.fs (FLAVORS_ROOT ++ [name] ++ m.source) ≠ some FsNode.dir)
    (hsw : switchFlavor cfg name e w = .ok (e1, w1)) :
    e1 = ⟨⟨some name, cfg.mappings.map
        (fun m => (m.target, backupRecord cfg w.fs m))⟩, some name⟩ ∧
    (∀ m ∈ cfg.mappings,
      pathExists w.fs (cfg.projectRoot ++ m.target) = true →
      ∀ r, w1.fs (BACKUP_ROOT ++ m.target ++ r) =
        w.fs (cfg.projectRoot ++ m.target ++ r)) ∧
    (∀ m ∈ cfg.mappings,
      (pathExists w.fs (FLAVORS_ROOT ++ [name] ++ m.source) = true →
        ∀ r, w1.fs (cfg.projectRoot ++ m.target ++ r) =
          nodeOr (w.fs (FLAVORS_ROOT ++ [name] ++ m.source ++ r))
            (w.fs (cfg.projectRoot ++ m.target ++ r))) ∧
      (pathExists w.fs (FLAVORS_ROOT ++ [name] ++ m.source) = false →
        ∀ r, w1.fs (cfg.projectRoot ++ m.target ++ r) =
          w.fs (cfg.projectRoot ++ m.target ++ r))) ∧
    (∀ q, FLAVORS_ROOT <+: q → w1.fs q = w.fs q) ∧
    (∀ m ∈ cfg.mappings,
      pathExists w.fs (cfg.projectRoot ++ m.target) = false →
      m.type = FileType.directory →
      pathExists w1.fs (cfg.projectRoot ++ m.target) = false →
      ∀ r, w1.fs (cfg.projectRoot ++ m.target ++ r) = none) ∧
    ∀ m ∈ cfg.mappings,
      pathExists w.fs (cfg.projectRoot ++ m.target) = false →
      m.type = FileType.file →
      w1.fs (cfg.projectRoot ++ m.target) ≠ some FsNode.dir := by
  obtain ⟨hpair, hdisjB, hdisjF⟩ := hdisj
  obtain ⟨eb, wb, fs', hbkOk, happ, he1, hw1fs, -⟩ :=
    switchFlavor_ok_none cfg name e w e1 w1 hnone hsw
  obtain ⟨hrec, hoff, hbp⟩ :=
    backupOriginalFiles_ok_spec hdisjB hpair hbEmpty hbkOk
  have happB : ∀ q, BACKUP_ROOT <+: q → fs' q = wb.fs q :=
    applyFlavor_backup_untouched cfg name hdisjB happ
  have happF : ∀ q, FLAVORS_ROOT <+: q → fs' q = wb.fs q :=
    applyFlavor_flavors_untouched cfg name hdisjF happ
  have hchar := applyMappings_ok_region cfg (FLAVORS_ROOT ++ [name])
    cfg.mappings wb.fs fs' hpair
    (fun m hm => notOverlap_extend (hdisjF m hm)) happ
  have hoffT : ∀ m ∈ cfg.mappings, ∀ r,
      wb.fs (cfg.projectRoot ++ m.target ++ r) =
        w.fs (cfg.projectRoot ++ m.target ++ r) := by
    intro m hm r
    exact hoff _ (notOverlap_of_region (hdisjB m hm) (List.prefix_append _ r))
  have hoffS : ∀ m ∈ cfg.mappings, ∀ r,
      wb.fs (FLAVORS_ROOT ++ [name] ++ m.source ++ r) =
        w.fs (FLAVORS_ROOT ++ [name] ++ m.source ++ r) := by
    intro m hm r
    exact hoff _ (flavor_path_not_overlap_backup name m.source r)
  have hsrcEq : ∀ m ∈ cfg.mappings,
      pathExists wb.fs (FLAVORS_ROOT ++ [name] ++ m.source) =
        pathExists w.fs (FLAVORS_ROOT ++ [name] ++ m.source) := by
    intro m hm
    unfold pathExists
    rw [hoff _ (flavor_src_not_overlap_backup name m.source)]
  have he1R : e1 = ⟨⟨some name, cfg.mappings.map
      (fun m => (m.target, backupRecord cfg w.fs m))⟩, some name⟩ := by
    rw [he1, hrec]
  have hmir : ∀ m ∈ cfg.mappings,
      pathExists w.fs (cfg.projectRoot ++ m.target) = true →
      ∀ r, w1.fs (BACKUP_ROOT ++ m.target ++ r) =
        w.fs (cfg.projectRoot ++ m.target ++ r) := by
    intro m hm hex r
    rw [hw1fs, happB _ ((List.prefix_append BACKUP_ROOT m.target).trans
      (List.prefix_append _ r))]
    exact hbp m hm hex r
  have hcharW : ∀ m ∈ cfg.mappings,
      (pathExists w.fs (FLAVORS_ROOT ++ [name] ++ m.source) = true →
        ∀ r, w1.fs (cfg.projectRoot ++ m.target ++ r) =
          nodeOr (w.fs (FLAVORS_ROOT ++ [name] ++ m.source ++ r))
            (w.fs (cfg.projectRoot ++ m.target ++ r))) ∧
      (pathExists w.fs (FLAVORS_ROOT ++ [name] ++ m.source) = false →
        ∀ r, w1.fs (cfg.projectRoot ++ m.target ++ r) =
          w.fs (cfg.projectRoot ++ m.target ++ r)) := by
    intro m hm
    constructor
    · intro hsx r
      rw [hw1fs, ← hoffS m hm r, ← hoffT m hm r]
      exact (hchar m hm).1 (by rw [hsrcEq m hm]; exact hsx) r
    · intro hsx r
      rw [hw1fs, ← hoffT m hm r]
      exact (hchar m hm).2 (by rw [hsrcEq m hm]; exact hsx) r
  have hflavStable : ∀ q, FLAVORS_ROOT <+: q → w1.fs q = w.fs q := by
    intro q hq
    obtain ⟨s, rfl⟩ := hq
    rw [hw1fs, happF _ (List.prefix_append _ s)]
    exact hoff _ (flavors_not_overlap_backup s)
  have hnode : ∀ m ∈ cfg.mappings,
      pathExists w.fs (cfg.projectRoot ++ m.target) = false →
      (pathExists w.fs (FLAVORS_ROOT ++ [name] ++ m.source) = true →
        w1.fs (cfg.projectRoot ++ m.target) =
          w.fs (FLAVORS_ROOT ++ [name] ++ m.source)) ∧
      (pathExists w.fs (FLAVORS_ROOT ++ [name] ++ m.source) = false →
        w1.fs (cfg.projectRoot ++ m.target) = none) := by
    intro m hm hexF
    constructor
    · intro hsx
      have h0 := (hcharW m hm).1 hsx []
      simp only [List.append_nil] at h0
      rw [h0, pathExists_false_none hexF, nodeOr_none_right]
    · intro hsx
      have h0 := (hcharW m hm).2 hsx []
      simp only [List.append_nil] at h0
      rw [h0]
      exact pathExists_false_none hexF
  refine ⟨he1R, hmir, hcharW, hflavStable, ?_, ?_⟩
  · intro m hm hexF hdir hfsx r
    by_cases hsx : pathExists w.fs (FLAVORS_ROOT ++ [name] ++ m.source) = true
    · have hsnone : w.fs (FLAVORS_ROOT ++ [name] ++ m.source) = none := by
        have h0 := (hnode m hm hexF).1 hsx
        rw [← h0]
        exact pathExists_false_none hfsx
      rw [(hcharW m hm).1 hsx r, hwf.1 _ r hsnone,
        hwf.1 _ r (pathExists_false_none hexF)]
      rfl
    · rw [(hcharW m hm).2 (by simpa using hsx) r]
      exact hwf.1 _ r (pathExists_false_none hexF)
  · intro m hm hexF hfil
    by_cases hsx : pathExists w.fs (FLAVORS_ROOT ++ [name] ++ m.source) = true
    · rw [(hnode m hm hexF).1 hsx]
      exact htype m hm hfil hexF
    · rw [(hnode m hm hexF).2 (by simpa using hsx)]
      simp

/-! ## C2: round-trip restore (corrected) -/

/-- C2 (amended): from the no-active-flavor state, for every mapping
target that existed beforehand, a successful `switchFlavor` captures the
target's exact pre-switch subtree as its backup, and `resetFlavor`
afterwards succeeds and restores every path of that captured content
byte-for-byte; when the target is a regular file the whole target region
equals its pre-switch state exactly.  Because the restore's `fs.copy`
merges into an existing directory, entries the flavor added under a
pre-existing directory target can survive the reset
(`claim_C2_counterexample`), so for directory targets the restoration is
one-sided.  Hypotheses: pairwise-disjoint targets also disjoint from the
backup and flavors roots, a tree-like filesystem, a nonempty flavor name
(an empty one is falsy in the JS truthiness guards), an initially absent
backup root, declared `file` kinds matching the flavor's nodes (else the
reset's `fs.unlink` throws `EISDIR`), and kind-compatibility of each
flavor source with its target (else `fs.copy` throws). -/
theorem claim_C2 (cfg : Configuration) (name : String) (e : Engine)
    (w : World) (e1 : Engine) (w1 : World)
    (hname : name ≠ "")
    (hdisj : TargetsDisjoint cfg)
    (hwf : TreeLike w.fs)
    (hnone : truthy e.currentFlavor = false)
    (hbEmpty : ∀ q, BACKUP_ROOT <+: q → w.fs q = none)
    (htype : ∀ m ∈ cfg.mappings, m.type = FileType.file →
      pathExists w.fs (cfg.projectRoot ++ m.target) = false →
      w.fs (FLAVORS_ROOT ++ [name] ++ m.source) ≠ some FsNode.dir)
    (hcompat : ∀ m ∈ cfg.mappings,
      NoClash w.fs (FLAVORS_ROOT ++ [name] ++ m.source)
        (cfg.projectRoot ++ m.target))
    (hsw : switchFlavor cfg name e w = .ok (e1, w1)) :
    ∃ e2 w2, resetFlavor cfg e1 w1 = .ok (e2, w2) ∧
      ∀ m ∈ cfg.mappings,
        pathExists w.fs (cfg.projectRoot ++ m.target) = true →
        (∀ r, w1.fs (BACKUP_ROOT ++ m.target ++ r) =
          w.fs (cfg.projectRoot ++ m.target ++ r)) ∧
        (∀ r v, w.fs (cfg.projectRoot ++ m.target ++ r) = some v →
          w2.fs (cfg.projectRoot ++ m.target ++ r) = some v) ∧
        ∀ b, w.fs (cfg.projectRoot ++ m.target) = some (FsNode.file b) →
          ∀ r, w2.fs (cfg.projectRoot ++ m.target ++ r) =
            w.fs (cfg.projectRoot ++ m.target ++ r) := by
  obtain ⟨hpair, hdisjB, hdisjF⟩ := hdisj
  obtain ⟨he1, hmir, hcharW, hflavStable, habs1, hfile1⟩ :=
    switchNone_spec cfg name e w e1 w1 ⟨hpair, hdisjB, hdisjF⟩ hwf hnone
      hbEmpty htype hsw
  obtain ⟨fsR, hfoldOk, hfacts⟩ := restoreFold_spec cfg w.fs cfg.mappings
    w1.fs hdisjB hpair hmir habs1 hfile1
  have htr1 : truthy e1.currentFlavor = true := by
    rw [he1]
    simp [truthy, hname]
  have hres : restoreOriginalFiles cfg e1.state w1.fs = .ok fsR := by
    rw [restoreOriginalFiles_eq, he1]
    exact hfoldOk
  have hreset := resetFlavor_ok_struct cfg e1 w1 htr1 hres
  refine ⟨_, _, hreset, ?_⟩
  intro m hm hex
  have hfinal : ∀ r,
      (if pathExists fsR BACKUP_ROOT then removeTree fsR BACKUP_ROOT
        else fsR) (cfg.projectRoot ++ m.target ++ r) =
        fsR (cfg.projectRoot ++ m.target ++ r) := fun r =>
    removeBackup_untouched (hdisjB m hm) (List.prefix_append _ r)
  refine ⟨hmir m hm hex, ?_, ?_⟩
  · intro r v hv
    show (if pathExists fsR BACKUP_ROOT then removeTree fsR BACKUP_ROOT
      else fsR) (cfg.projectRoot ++ m.target ++ r) = some v
    rw [hfinal r, (hfacts m hm).1 hex r, hv]
    rfl
  · intro b hb r
    show (if pathExists fsR BACKUP_ROOT then removeTree fsR BACKUP_ROOT
      else fsR) (cfg.projectRoot ++ m.target ++ r) =
      w.fs (cfg.projectRoot ++ m.target ++ r)
    rw [hfinal r, (hfacts m hm).1 hex r]
    rcases hr : r with _ | ⟨c, r'⟩
    · simp only [List.append_nil]
      rw [hb]
      rfl
    · have hrne : r ≠ [] := by rw [hr]; simp
      rw [← hr]
      have hwnone : w.fs (cfg.projectRoot ++ m.target ++ r) = none :=
        hwf.2 _ b r hb hrne
      rw [hwnone]
      show w1.fs (cfg.projectRoot ++ m.target ++ r) = none
      by_cases hsx : pathExists w.fs
          (FLAVORS_ROOT ++ [name] ++ m.source) = true
      · rw [(hcharW m hm).1 hsx r, hwnone, nodeOr_none_right]
        have hc0 : compatNode
            (w.fs (FLAVORS_ROOT ++ [name] ++ m.source))
            (w.fs (cfg.projectRoot ++ m.target)) = true := by
          have h0 := hcompat m hm []
          simpa using h0
        rw [hb] at hc0
        have hnd := compatNode_dir_left hc0
        have hsome : (w.fs (FLAVORS_ROOT ++ [name] ++ m.source)).isSome =
            true := hsx
        rcases hv : w.fs (FLAVORS_ROOT ++ [name] ++ m.source) with _ | n
        · rw [hv] at hsome
          simp at hsome
        · cases n with
          | file b' => exact hwf.2 _ b' r hv hrne
          | dir => exact absurd hv hnd
      · rw [(hcharW m hm).2 (by simpa using hsx) r]
        exact hwnone

/-- Counterexample to C2 as frozen: the directory target `styles` existed
before the switch with content `{a.css}`; after `switchFlavor("x")` and a
successful `resetFlavor()` the flavor-added file `styles/b.css` is still
present, so the target's content is not exactly the captured backup
content. -/
theorem claim_C2_counterexample :
    switchFlavor cexCfg "x" ⟨⟨none, []⟩, none⟩ ⟨cexFs, none, none⟩ =
      .ok (cexStep1.1, cexStep1.2) ∧
    resetFlavor cexCfg cexStep1.1 cexStep1.2 =
      .ok (cexReset1.1, cexReset1.2) ∧
    pathExists cexFs ["styles"] = true ∧
    cexFs ["styles", "b.css"] = none ∧
    cexReset1.2.fs ["styles", "b.css"] = some (FsNode.file [9]) :=
  ⟨rfl, rfl, rfl, rfl, rfl⟩

/-- Closed witness for C2 at the concrete §8 scenario: switch `brand-a`,
reset, and the file target `src/logo.png` region is byte-identical to its
original content. -/
theorem claim_C2_witness :
    ∃ e1 w1, switchFlavor exampleCfg "brand-a" ⟨⟨none, []⟩, none⟩
        ⟨exampleFs, none, none⟩ = .ok (e1, w1) ∧
      ∃ e2 w2, resetFlavor exampleCfg e1 w1 = .ok (e2, w2) ∧
        ∀ r, w2.fs (["src", "logo.png"] ++ r) =
          exampleFs (["src", "logo.png"] ++ r) := by
  obtain ⟨pr, hsw⟩ : ∃ pr, switchFlavor exampleCfg "brand-a"
      ⟨⟨none, []⟩, none⟩ ⟨exampleFs, none, none⟩ = .ok pr := ⟨_, rfl⟩
  obtain ⟨e1, w1⟩ := pr
  refine ⟨e1, w1, hsw, ?_⟩
  obtain ⟨e2, w2, hreset, hfacts⟩ := claim_C2 exampleCfg "brand-a"
    ⟨⟨none, []⟩, none⟩ ⟨exampleFs, none, none⟩ e1 w1 (by decide)
    ⟨by decide, by decide, by decide⟩
    (treeLike_of_treeShape (by decide))
    (by decide)
    (fsOfList_region_none (by decide))
    (by decide)
    (by
      intro m hm
      rcases List.mem_singleton.mp hm with rfl
      exact noClash_of_list (by decide))
    hsw
  refine ⟨e2, w2, hreset, ?_⟩
  intro r
  exact (hfacts ⟨["logo.png"], ["src", "logo.png"], FileType.file, true,
    none⟩ (by decide) (by decide)).2.2 [1] (by decide) r

/-! ## C3: non-existent-target cleanup -/

/-- C3: from the no-active-flavor state, a mapping target that did not
exist before the switch does not exist after `switchFlavor` then a
successful `resetFlavor`; when its recorded kind is `directory` the whole
target subtree is removed recursively (`fs.remove`), and a `file` record
is deleted with `fs.unlink`.  The kind-match hypothesis `htype` rules out
the configuration where a `file`-kind record's target actually holds a
directory, on which the program's `fs.unlink` throws `EISDIR` and the
reset aborts (the model's `resetFlavor` faithfully returns an error
there); `hcompat` confines the run to ones where no `fs.copy` throws. -/
theorem claim_C3 (cfg : Configuration) (name : String) (e : Engine)
    (w : World) (e1 : Engine) (w1 : World)
    (hname : name ≠ "")
    (hdisj : TargetsDisjoint cfg)
    (hwf : TreeLike w.fs)
    (hnone : truthy e.currentFlavor = false)
    (hbEmpty : ∀ q, BACKUP_ROOT <+: q → w.fs q = none)
    (htype : ∀ m ∈ cfg.mappings, m.type = FileType.file →
      pathExists w.fs (cfg.projectRoot ++ m.target) = false →
      w.fs (FLAVORS_ROOT ++ [name] ++ m.source) ≠ some FsNode.dir)
    (hcompat : ∀ m ∈ cfg.mappings,
      NoClash w.fs (FLAVORS_ROOT ++ [name] ++ m.source)
        (cfg.projectRoot ++ m.target))
    (hsw : switchFlavor cfg name e w = .ok (e1, w1)) :
    ∃ e2 w2, resetFlavor cfg e1 w1 = .ok (e2, w2) ∧
      ∀ m ∈ cfg.mappings,
        pathExists w.fs (cfg.projectRoot ++ m.target) = false →
        w2.fs (cfg.projectRoot ++ m.target) = none ∧
        (m.type = FileType.directory →
          ∀ r, w2.fs (cfg.projectRoot ++ m.target ++ r) = none) := by
  obtain ⟨hpair, hdisjB, hdisjF⟩ := hdisj
  obtain ⟨he1, hmir, hcharW, hflavStable, habs1, hfile1⟩ :=
    switchNone_spec cfg name e w e1 w1 ⟨hpair, hdisjB, hdisjF⟩ hwf hnone
      hbEmpty htype hsw
  obtain ⟨fsR, hfoldOk, hfacts⟩ := restoreFold_spec cfg w.fs cfg.mappings
    w1.fs hdisjB hpair hmir habs1 hfile1
  have htr1 : truthy e1.currentFlavor = true := by
    rw [he1]
    simp [truthy, hname]
  have hres : restoreOriginalFiles cfg e1.state w1.fs = .ok fsR := by
    rw [restoreOriginalFiles_eq, he1]
    exact hfoldOk
  have hreset := resetFlavor_ok_struct cfg e1 w1 htr1 hres
  refine ⟨_, _, hreset, ?_⟩
  intro m hm hexF
  constructor
  · show (if pathExists fsR BACKUP_ROOT then removeTree fsR BACKUP_ROOT
      else fsR) (cfg.projectRoot ++ m.target) = none
    rw [removeBackup_untouched (hdisjB m hm) (List.prefix_refl _)]
    exact (hfacts m hm).2.1 hexF
  · intro hdir r
    show (if pathExists fsR BACKUP_ROOT then removeTree fsR BACKUP_ROOT
      else fsR) (cfg.projectRoot ++ m.target ++ r) = none
    rw [removeBackup_untouched (hdisjB m hm) (List.prefix_append _ r)]
    exact (hfacts m hm).2.2.1 hexF hdir r

/-- Closed witness for C3: the optional directory mapping target
`src/absent/generated/x` does not exist beforehand; the flavor's `gen`
directory is applied there, and after reset the target is gone,
recursively. -/
theorem claim_C3_witness :
    ∃ e1 w1, switchFlavor exampleCfgAbsent "brand-a" ⟨⟨none, []⟩, none⟩
        ⟨exampleFs, none, none⟩ = .ok (e1, w1) ∧
      ∃ e2 w2, resetFlavor exampleCfgAbsent e1 w1 = .ok (e2, w2) ∧
        w2.fs ["src", "absent", "generated", "x"] = none ∧
        ∀ r, w2.fs (["src", "absent", "generated", "x"] ++ r) = none := by
  obtain ⟨pr, hsw⟩ : ∃ pr, switchFlavor exampleCfgAbsent "brand-a"
      ⟨⟨none, []⟩, none⟩ ⟨exampleFs, none, none⟩ = .ok pr := ⟨_, rfl⟩
  obtain ⟨e1, w1⟩ := pr
  refine ⟨e1, w1, hsw, ?_⟩
  obtain ⟨e2, w2, hreset, hfacts⟩ := claim_C3 exampleCfgAbsent "brand-a"
    ⟨⟨none, []⟩, none⟩ ⟨exampleFs, none, none⟩ e1 w1 (by decide)
    ⟨by decide, by decide, by decide⟩
    (treeLike_of_treeShape (by decide))
    (by decide)
    (fsOfList_region_none (by decide))
    (by decide)
    (by
      intro m hm
      rcases List.mem_cons.mp hm with rfl | hm2
      · exact noClash_of_list (by decide)
      · rcases List.mem_singleton.mp hm2 with rfl
        exact noClash_of_list (by decide))
    hsw
  have h := hfacts ⟨["gen"], ["src", "absent", "generated", "x"],
    FileType.directory, false, none⟩ (by decide) (by decide)
  exact ⟨e2, w2, hreset, h.1, h.2 rfl⟩

/-! ## C10: switching to the already-active flavor -/

/-- C10: the engine does not reject `switchFlavor(id)` when `id` is already
active: provided `id` is configured, active, its structure validates, and
the restore and apply passes complete, the call succeeds, restoring the
originals and re-applying the flavor on top of them, without recapturing
backups (`originalFiles` is carried over unchanged), and persists the
ledger with the same active flavor.  Only the interactive selection guard
refuses an already-active flavor. -/
theorem claim_C10 (cfg : Configuration) (name : String) (e : Engine)
    (w : World) (fc : FlavorConfig) (fsR fs' : FS)
    (hname : name ≠ "")
    (hcur : e.currentFlavor = some name)
    (hlk : lookupFlavor cfg name = some fc)
    (hact : fc.active = true)
    (hval : validateFlavorStructure cfg w.fs name = .ok ())
    (hres : restoreOriginalFiles cfg e.state w.fs = .ok fsR)
    (happ : applyFlavor cfg name fsR = .ok fs') :
    (∃ w1, switchFlavor cfg name e w =
        .ok (⟨⟨some name, e.state.originalFiles⟩, some name⟩, w1) ∧
      w1.fs = fs' ∧
      w1.ledgerFile = some (some ⟨some name, e.state.originalFiles⟩)) ∧
    interactiveAllowsSwitch e name = false := by
  have htr : truthy e.currentFlavor = true := by
    rw [hcur]
    simp [truthy, hname]
  constructor
  · unfold switchFlavor
    rw [hlk]
    simp only [hact, hval, htr, hres, happ, Bool.not_true,
      Bool.false_eq_true, if_false, if_true]
    exact ⟨_, rfl, rfl, rfl⟩
  · simp [interactiveAllowsSwitch, hcur]

/-- Closed witness for C10: re-switching `brand-a` while it is active
succeeds in the engine while the interactive guard refuses it. -/
theorem claim_C10_witness :
    ∃ fs', ((∃ w1, switchFlavor exampleCfg "brand-a"
        ⟨⟨some "brand-a", []⟩, some "brand-a"⟩ ⟨exampleFs, none, none⟩ =
          .ok (⟨⟨some "brand-a", []⟩, some "brand-a"⟩, w1) ∧
        w1.fs = fs' ∧
        w1.ledgerFile = some (some ⟨some "brand-a", []⟩)) ∧
      interactiveAllowsSwitch ⟨⟨some "brand-a", []⟩, some "brand-a"⟩
        "brand-a" = false) := by
  obtain ⟨fs', happ⟩ : ∃ fs', applyFlavor exampleCfg "brand-a" exampleFs =
      .ok fs' := ⟨_, rfl⟩
  exact ⟨fs', claim_C10 exampleCfg "brand-a"
    ⟨⟨some "brand-a", []⟩, some "brand-a"⟩ ⟨exampleFs, none, none⟩
    ⟨"Brand A", none, true⟩ exampleFs fs' (by decide) rfl rfl rfl rfl rfl
    happ⟩

/-! ## C1: backup stability across switches (corrected) -/

/-- C1 (amended): starting with no active flavor, `switchFlavor(A)` then
`switchFlavor(B)` then a successful `resetFlavor()` restores every path
that was present before A byte-for-byte and removes every target that was
absent then (recursively for directory mappings); backups are captured
only on the none→active transition: the second switch carries
`originalFiles` over unchanged and leaves the entire backup root
untouched.  Because the flavor copies and the restore copy merge into
existing directories, entries a flavor added under a pre-existing
directory target can survive the reset (`claim_C1_counterexample`), so
the restoration of pre-existing directory targets is one-sided rather
than exact.  Hypotheses as in C2, for both flavors, plus
kind-compatibility between the two flavors' sources (`fs.copy` throws on
a clash). -/
theorem claim_C1 (cfg : Configuration) (nameA nameB : String) (e : Engine)
    (w : World) (e1 : Engine) (w1 : World) (e2 : Engine) (w2 : World)
    (hnameA : nameA ≠ "")
    (hnameB : nameB ≠ "")
    (hdisj : TargetsDisjoint cfg)
    (hwf : TreeLike w.fs)
    (hnone : truthy e.currentFlavor = false)
    (hbEmpty : ∀ q, BACKUP_ROOT <+: q → w.fs q = none)
    (htypeA : ∀ m ∈ cfg.mappings, m.type = FileType.file →
      pathExists w.fs (cfg.projectRoot ++ m.target) = false →
      w.fs (FLAVORS_ROOT ++ [nameA] ++ m.source) ≠ some FsNode.dir)
    (htypeB : ∀ m ∈ cfg.mappings, m.type = FileType.file →
      pathExists w.fs (cfg.projectRoot ++ m.target) = false →
      w.fs (FLAVORS_ROOT ++ [nameB] ++ m.source) ≠ some FsNode.dir)
    (hcompatA : ∀ m ∈ cfg.mappings,
      NoClash w.fs (FLAVORS_ROOT ++ [nameA] ++ m.source)
        (cfg.projectRoot ++ m.target))
    (hcompatB : ∀ m ∈ cfg.mappings,
      NoClash w.fs (FLAVORS_ROOT ++ [nameB] ++ m.source)
        (cfg.projectRoot ++ m.target))
    (hcompatAB : ∀ m ∈ cfg.mappings,
      NoClash w.fs (FLAVORS_ROOT ++ [nameA] ++ m.source)
        (FLAVORS_ROOT ++ [nameB] ++ m.source))
    (hsw1 : switchFlavor cfg nameA e w = .ok (e1, w1))
    (hsw2 : switchFlavor cfg nameB e1 w1 = .ok (e2, w2)) :
    e2.state.originalFiles = e1.state.originalFiles ∧
    (∀ q, BACKUP_ROOT <+: q → w2.fs q = w1.fs q) ∧
    ∃ e3 w3, resetFlavor cfg e2 w2 = .ok (e3, w3) ∧
      ∀ m ∈ cfg.mappings,
        (∀ r v, w.fs (cfg.projectRoot ++ m.target ++ r) = some v →
          w3.fs (cfg.projectRoot ++ m.target ++ r) = some v) ∧
        (pathExists w.fs (cfg.projectRoot ++ m.target) = false →
          w3.fs (cfg.projectRoot ++ m.target) = none ∧
          (m.type = FileType.directory →
            ∀ r, w3.fs (cfg.projectRoot ++ m.target ++ r) = none)) := by
  obtain ⟨hpair, hdisjB, hdisjF⟩ := hdisj
  obtain ⟨he1, hmir1, hchar1, hflav1, habs1, hfile1⟩ :=
    switchNone_spec cfg nameA e w e1 w1 ⟨hpair, hdisjB, hdisjF⟩ hwf hnone
      hbEmpty htypeA hsw1
  obtain ⟨fsR, hfoldOk1, hfacts1⟩ := restoreFold_spec cfg w.fs cfg.mappings
    w1.fs hdisjB hpair hmir1 habs1 hfile1
  have htr1 : truthy e1.currentFlavor = true := by
    rw [he1]
    simp [truthy, hnameA]
  have hres1 : restoreOriginalFiles cfg e1.state w1.fs = .ok fsR := by
    rw [restoreOriginalFiles_eq, he1]
    exact hfoldOk1
  obtain ⟨fsR', fs2', hres2, happ2, he2, hw2fs, -⟩ :=
    switchFlavor_ok_active cfg nameB e1 w1 e2 w2 htr1 hsw2
  have hfsReq : fsR = fsR' := by
    rw [hres1] at hres2
    simpa using hres2
  subst hfsReq
  have hA : e2.state.originalFiles = e1.state.originalFiles := by
    rw [he2]
  have hfsRB : ∀ q, BACKUP_ROOT <+: q → fsR q = w1.fs q := by
    intro q hq
    apply restoreEntries_ok_untouched cfg _ w1.fs fsR q hfoldOk1
    intro ent hent
    obtain ⟨m', hm', rfl⟩ := List.mem_map.mp hent
    intro hpre
    exact hdisjB m' hm' (prefixComparable hpre hq)
  have hB : ∀ q, BACKUP_ROOT <+: q → w2.fs q = w1.fs q := by
    intro q hq
    rw [hw2fs, applyFlavor_backup_untouched cfg nameB hdisjB happ2 q hq,
      hfsRB q hq]
  have hfsRF : ∀ q, FLAVORS_ROOT <+: q → fsR q = w.fs q := by
    intro q hq
    rw [← hflav1 q hq]
    apply restoreEntries_ok_untouched cfg _ w1.fs fsR q hfoldOk1
    intro ent hent
    obtain ⟨m', hm', rfl⟩ := List.mem_map.mp hent
    intro hpre
    exact hdisjF m' hm' (prefixComparable hpre hq)
  have hFpre : ∀ (s r : Path), FLAVORS_ROOT <+:
      FLAVORS_ROOT ++ [nameB] ++ s ++ r :=
    fun s r => ((List.prefix_append FLAVORS_ROOT [nameB]).trans
      (List.prefix_append _ s)).trans (List.prefix_append _ r)
  have hFpre0 : ∀ s : Path, FLAVORS_ROOT <+: FLAVORS_ROOT ++ [nameB] ++ s :=
    fun s => (List.prefix_append FLAVORS_ROOT [nameB]).trans
      (List.prefix_append _ s)
  have hchar2 := applyMappings_ok_region cfg (FLAVORS_ROOT ++ [nameB])
    cfg.mappings fsR fs2' hpair
    (fun m hm => notOverlap_extend (hdisjF m hm)) happ2
  have hsrcEq2 : ∀ m ∈ cfg.mappings,
      pathExists fsR (FLAVORS_ROOT ++ [nameB] ++ m.source) =
        pathExists w.fs (FLAVORS_ROOT ++ [nameB] ++ m.source) := by
    intro m hm
    unfold pathExists
    rw [hfsRF _ (hFpre0 m.source)]
  have hbp2 : ∀ m ∈ cfg.mappings,
      pathExists w.fs (cfg.projectRoot ++ m.target) = true →
      ∀ r, w2.fs (BACKUP_ROOT ++ m.target ++ r) =
        w.fs (cfg.projectRoot ++ m.target ++ r) := by
    intro m hm hex r
    rw [hB _ ((List.prefix_append BACKUP_ROOT m.target).trans
      (List.prefix_append _ r))]
    exact hmir1 m hm hex r
  have hnode2 : ∀ m ∈ cfg.mappings,
      pathExists w.fs (cfg.projectRoot ++ m.target) = false →
      (pathExists w.fs (FLAVORS_ROOT ++ [nameB] ++ m.source) = true →
        w2.fs (cfg.projectRoot ++ m.target) =
          w.fs (FLAVORS_ROOT ++ [nameB] ++ m.source)) ∧
      (pathExists w.fs (FLAVORS_ROOT ++ [nameB] ++ m.source) = false →
        w2.fs (cfg.projectRoot ++ m.target) = none) := by
    intro m hm hexF
    have hfsRnode : fsR (cfg.projectRoot ++ m.target) = none :=
      (hfacts1 m hm).2.1 hexF
    constructor
    · intro hsx
      have h0 := (hchar2 m hm).1 (by rw [hsrcEq2 m hm]; exact hsx) []
      simp only [List.append_nil] at h0
      rw [hw2fs, h0, hfsRnode, nodeOr_none_right,
        hfsRF _ (hFpre0 m.source)]
    · intro hsx
      have h0 := (hchar2 m hm).2 (by rw [hsrcEq2 m hm]; simpa using hsx) []
      simp only [List.append_nil] at h0
      rw [hw2fs, h0, hfsRnode]
  have habs2 : ∀ m ∈ cfg.mappings,
      pathExists w.fs (cfg.projectRoot ++ m.target) = false →
      m.type = FileType.directory →
      pathExists w2.fs (cfg.projectRoot ++ m.target) = false →
      ∀ r, w2.fs (cfg.projectRoot ++ m.target ++ r) = none := by
    intro m hm hexF hdir hfsx r
    by_cases hsx : pathExists w.fs
        (FLAVORS_ROOT ++ [nameB] ++ m.source) = true
    · have hsnone : w.fs (FLAVORS_ROOT ++ [nameB] ++ m.source) = none := by
        have h0 := (hnode2 m hm hexF).1 hsx
        rw [← h0]
        exact pathExists_false_none hfsx
      have h0 := (hchar2 m hm).1 (by rw [hsrcEq2 m hm]; exact hsx) r
      rw [hw2fs, h0, (hfacts1 m hm).2.2.1 hexF hdir r,
        hfsRF _ (hFpre m.source r), hwf.1 _ r hsnone]
      rfl
    · have h0 := (hchar2 m hm).2
        (by rw [hsrcEq2 m hm]; simpa using hsx) r
      rw [hw2fs, h0]
      exact (hfacts1 m hm).2.2.1 hexF hdir r
  have hfile2 : ∀ m ∈ cfg.mappings,
      pathExists w.fs (cfg.projectRoot ++ m.target) = false →
      m.type = FileType.file →
      w2.fs (cfg.projectRoot ++ m.target) ≠ some FsNode.dir := by
    intro m hm hexF hfil
    by_cases hsx : pathExists w.fs
        (FLAVORS_ROOT ++ [nameB] ++ m.source) = true
    · rw [(hnode2 m hm hexF).1 hsx]
      exact htypeB m hm hfil hexF
    · rw [(hnode2 m hm hexF).2 (by simpa using hsx)]
      simp
  obtain ⟨fsR2, hfoldOk2, hfacts2⟩ := restoreFold_spec cfg w.fs
    cfg.mappings w2.fs hdisjB hpair hbp2 habs2 hfile2
  have htr2 : truthy e2.currentFlavor = true := by
    rw [he2]
    simp [truthy, hnameB]
  have hres3 : restoreOriginalFiles cfg e2.state w2.fs = .ok fsR2 := by
    rw [restoreOriginalFiles_eq, he2, he1]
    exact hfoldOk2
  have hreset := resetFlavor_ok_struct cfg e2 w2 htr2 hres3
  refine ⟨hA, hB, _, _, hreset, ?_⟩
  intro m hm
  constructor
  · intro r v hv
    show (if pathExists fsR2 BACKUP_ROOT then removeTree fsR2 BACKUP_ROOT
      else fsR2) (cfg.projectRoot ++ m.target ++ r) = some v
    rw [removeBackup_untouched (hdisjB m hm) (List.prefix_append _ r)]
    by_cases hex : pathExists w.fs (cfg.projectRoot ++ m.target) = true
    · rw [(hfacts2 m hm).1 hex r, hv]
      rfl
    · exfalso
      have hnone0 := hwf.1 (cfg.projectRoot ++ m.target) r
        (pathExists_false_none (by simpa using hex))
      rw [hnone0] at hv
      exact absurd hv (by simp)
  · intro hexF
    constructor
    · show (if pathExists fsR2 BACKUP_ROOT then removeTree fsR2 BACKUP_ROOT
        else fsR2) (cfg.projectRoot ++ m.target) = none
      rw [removeBackup_untouched (hdisjB m hm) (List.prefix_refl _)]
      exact (hfacts2 m hm).2.1 hexF
    · intro hdir r
      show (if pathExists fsR2 BACKUP_ROOT then removeTree fsR2 BACKUP_ROOT
        else fsR2) (cfg.projectRoot ++ m.target ++ r) = none
      rw [removeBackup_untouched (hdisjB m hm) (List.prefix_append _ r)]
      exact (hfacts2 m hm).2.2.1 hexF hdir r

/-- Counterexample to C1 as frozen: the directory target `styles` holds
`{a.css}` before flavor `x`; after `switchFlavor("x")`,
`switchFlavor("y")` and a successful `resetFlavor()` the flavor-added
file `styles/b.css` (with flavor `y`'s bytes) is still present, so the
target is not in its pre-A baseline state. -/
theorem claim_C1_counterexample :
    switchFlavor cexCfg "x" ⟨⟨none, []⟩, none⟩ ⟨cexFs, none, none⟩ =
      .ok (cexStep1.1, cexStep1.2) ∧
    switchFlavor cexCfg "y" cexStep1.1 cexStep1.2 =
      .ok (cexStep2.1, cexStep2.2) ∧
    resetFlavor cexCfg cexStep2.1 cexStep2.2 =
      .ok (cexReset2.1, cexReset2.2) ∧
    cexFs ["styles", "b.css"] = none ∧
    cexReset2.2.fs ["styles", "b.css"] = some (FsNode.file [8]) :=
  ⟨rfl, rfl, rfl, rfl, rfl⟩

/-- Closed witness for C1: switch `brand-a`, then `brand-b`, then reset;
`originalFiles` is not recaptured, the backup root is stable across the
second switch, and `src/logo.png` returns to its pre-A content. -/
theorem claim_C1_witness :
    switchFlavor exampleCfg2 "brand-a" ⟨⟨none, []⟩, none⟩
      ⟨exampleFs, none, none⟩ = .ok (exampleStep1.1, exampleStep1.2) ∧
    switchFlavor exampleCfg2 "brand-b" exampleStep1.1 exampleStep1.2 =
      .ok (exampleStep2.1, exampleStep2.2) ∧
    exampleStep2.1.state.originalFiles =
      exampleStep1.1.state.originalFiles ∧
    ∃ e3 w3, resetFlavor exampleCfg2 exampleStep2.1 exampleStep2.2 =
        .ok (e3, w3) ∧
      w3.fs ["src", "logo.png"] = some (FsNode.file [1]) := by
  have hsw1 : switchFlavor exampleCfg2 "brand-a" ⟨⟨none, []⟩, none⟩
      ⟨exampleFs, none, none⟩ = .ok (exampleStep1.1, exampleStep1.2) := rfl
  have hsw2 : switchFlavor exampleCfg2 "brand-b" exampleStep1.1
      exampleStep1.2 = .ok (exampleStep2.1, exampleStep2.2) := rfl
  have h := claim_C1 exampleCfg2 "brand-a" "brand-b" ⟨⟨none, []⟩, none⟩
    ⟨exampleFs, none, none⟩ exampleStep1.1 exampleStep1.2 exampleStep2.1
    exampleStep2.2 (by decide) (by decide)
    ⟨by decide, by decide, by decide⟩
    (treeLike_of_treeShape (by decide))
    (by decide)
    (fsOfList_region_none (by decide))
    (by decide) (by decide)
    (by
      intro m hm
      rcases List.mem_singleton.mp hm with rfl
      exact noClash_of_list (by decide))
    (by
      intro m hm
      rcases List.mem_singleton.mp hm with rfl
      exact noClash_of_list (by decide))
    (by
      intro m hm
      rcases List.mem_singleton.mp hm with rfl
      exact noClash_of_list (by decide))
    hsw1 hsw2
  refine ⟨hsw1, hsw2, h.1, ?_⟩
  obtain ⟨e3, w3, hreset, hfacts⟩ := h.2.2
  refine ⟨e3, w3, hreset, ?_⟩
  have h0 := (hfacts ⟨["logo.png"], ["src", "logo.png"], FileType.file,
    true, none⟩ (by decide)).1 [] (FsNode.file [1]) (by decide)
  simpa using h0

end FlavorSwitcher
